import Mathlib

/-!
Verification of the CreepyBird danmaku engine (shallow embedding).

The engine (class `CreepyBird` in the source) schedules timed text
annotations ("danmaku") onto lanes over a video.  We embed its data model
and operations as pure Lean functions:

* machine floats (times, pixel geometry) are modelled as `ℚ`;
* the JS `Set` `_activeDanmaku` holds danmaku *objects*; object identity
  is modelled as a pair `(generation, index)` where `generation` is bumped
  on every successful `load` (each load builds fresh objects) and `index`
  is the position in the sorted `_data` array;
* DOM / rendering-engine queries (bounding rectangles, animation play
  states, video geometry) are external inputs and are passed to the
  operations as explicit oracle arguments;
* the engine's periodic 100 ms interval callback is modelled as a `tick`
  operation whose `loadDanmaku` loop runs on explicit fuel (the JS loop
  has no a-priori bound and can in fact diverge, so fuel is the honest
  embedding of "the loop ran for some number of iterations").
-/

/- Rational arithmetic is used throughout the model for times and pixel
geometry; Batteries marks the `Rat` operations `@[irreducible]`, which
blocks `decide`-style evaluation of concrete engine runs, so we restore
the default reducibility for them in this file. -/
attribute [local semireducible] Rat.add Rat.mul Rat.sub Rat.inv

namespace CreepyBird

/-- `DanmakuType` enum from parser.js (Float = scrolling, Bottom/Top = fixed). -/
inductive DanmakuType where
  | Float
  | Bottom
  | Top
deriving DecidableEq, Repr

/-- `CreepyBirdState` enum: the four lifecycle states. -/
inductive CBState where
  | Empty
  | Hide
  | Playing
  | Paused
deriving DecidableEq, Repr

/-- One parsed danmaku record (class `Danmaku`): time in seconds, display
mode, color, user id, text.  The constructor's mode validation always
succeeds here because `mode` is already a `DanmakuType`. -/
structure Danmaku where
  time : ℚ
  mode : DanmakuType
  color : String
  userId : String
  text : String
deriving DecidableEq, Repr

instance : Inhabited Danmaku := ⟨⟨0, .Float, "", "", ""⟩⟩

/-- A key identifying one danmaku *object*: (load generation, index in the
sorted collection).  Mirrors JS object identity across reloads. -/
abbrev DKey := ℕ × ℕ

/-- A visible item (class `DanmakuItem`): identity key plus the danmaku
record it was built from (the item keeps a reference to its danmaku). -/
structure VisItem where
  gen : ℕ
  idx : ℕ
  d : Danmaku
deriving DecidableEq, Repr

def VisItem.key (it : VisItem) : DKey := (it.gen, it.idx)

/-- One lane (class `DanmakuLine`): a queue of scrolling items plus at most
one fixed (Bottom/Top) item. -/
structure Lane where
  queue : List VisItem
  fixedItem : Option VisItem
deriving DecidableEq, Repr

def Lane.hasFixed (l : Lane) : Bool := l.fixedItem.isSome

def emptyLane : Lane := ⟨[], none⟩

instance : Inhabited Lane := ⟨emptyLane⟩

/-- All item keys held by a lane (queue entries plus the fixed item). -/
def Lane.keys (l : Lane) : List DKey :=
  l.queue.map VisItem.key ++ (match l.fixedItem with
    | some it => [it.key]
    | none => [])

/-- All item keys held by a list of lanes. -/
def laneBag : List Lane → List DKey
  | [] => []
  | l :: ls => l.keys ++ laneBag ls

/-- JS `Set.add`: append if not already present (insertion-ordered set). -/
def setAdd (s : List DKey) (k : DKey) : List DKey :=
  if k ∈ s then s else s ++ [k]

/-- JS `Set.delete` folded over a list of keys. -/
def eraseAll (s : List DKey) : List DKey → List DKey
  | [] => s
  | k :: ks => eraseAll (s.erase k) ks

/-- Engine state: the mutable fields of the `CreepyBird` instance that the
claims are about.  `attached` stands for `_videoElement !== null`,
`intervalOn` for `_intervalId !== null`, `gen` is the load-generation
counter realising JS object identity of `_data` entries. -/
structure Engine where
  data : Option (List Danmaku)
  gen : ℕ
  lanes : List Lane
  active : List DKey
  nextIdx : Option ℕ
  state : CBState
  isVisible : Bool
  intervalOn : Bool
  attached : Bool
  fontSize : ℚ
  lineMargin : ℚ
deriving Repr

/-- The freshly constructed engine (the constructor's field initializers). -/
def initEngine : Engine :=
  { data := none, gen := 0, lanes := [], active := [], nextIdx := none,
    state := .Empty, isVisible := false, intervalOn := false,
    attached := false, fontSize := 24, lineMargin := 50 }

/-- `_lineSpacing` (constant 1.2 in the constructor, never mutated). -/
def lineSpacing : ℚ := 6/5

/-- `danmakuSpeed` (constant 100 px/s in the constructor, never mutated). -/
def danmakuSpeed : ℚ := 100

/-! ### searchCurDanmaku (binary search)

The JS loop keeps an inclusive `right`; we carry the exclusive bound
`r = right + 1` as a `ℕ` so that `right = mid - 1` at `mid = 0` (which in
JS makes `right = -1` and ends the loop) is `r = 0` here.  `Math.floor
((left + right) / 2)` is `(left + r - 1) / 2` in ℕ division (operands are
nonnegative throughout). -/

/-- The loop body, structurally recursive on a fuel that strictly bounds
the loop measure `r - left` (kept structural so that the kernel can
evaluate it; `bsLoop` supplies a sufficient fuel and `bsLoop_unfold`
proves the JS recurrence, so the fuel is invisible from the outside). -/
def bsGo (data : List Danmaku) (t : ℚ) : ℕ → ℕ → ℕ → Option ℕ
  | 0, _left, _r => none
  | fuel + 1, left, r =>
    if left < r then
      let mid := (left + r - 1) / 2
      let midTime := (data.getD mid default).time
      if midTime = t then some mid
      else if midTime < t then bsGo data t fuel (mid + 1) r
      else bsGo data t fuel left mid
    else if left < data.length then some left else none

def bsLoop (data : List Danmaku) (t : ℚ) (left r : ℕ) : Option ℕ :=
  bsGo data t (r - left + 1) left r

theorem bsGo_mid_bounds {left r : ℕ} (h : left < r) :
    left ≤ (left + r - 1) / 2 ∧ (left + r - 1) / 2 < r := by
  omega

/-- The result of `bsGo` does not depend on the fuel once the fuel
strictly exceeds the loop measure. -/
theorem bsGo_fuel (data : List Danmaku) (t : ℚ) :
    ∀ f1 f2 left r, r - left < f1 → r - left < f2 →
      bsGo data t f1 left r = bsGo data t f2 left r := by
  intro f1
  induction f1 with
  | zero => omega
  | succ f1 ih =>
    intro f2 left r h1 h2
    obtain ⟨g, rfl⟩ : ∃ g, f2 = g + 1 := ⟨f2 - 1, by omega⟩
    by_cases h : left < r
    · obtain ⟨hml, hmr⟩ := bsGo_mid_bounds h
      simp only [bsGo, h, if_true]
      split
      · rfl
      · split
        · exact ih g ((left + r - 1) / 2 + 1) r (by omega) (by omega)
        · exact ih g left ((left + r - 1) / 2) (by omega) (by omega)
    · simp only [bsGo, h, if_false]

/-- `bsLoop` satisfies the recurrence of the JS `while (left <= right)`
loop (with `r` the exclusive right bound `right + 1`). -/
theorem bsLoop_unfold (data : List Danmaku) (t : ℚ) (left r : ℕ) :
    bsLoop data t left r =
      if left < r then
        let mid := (left + r - 1) / 2
        let midTime := (data.getD mid default).time
        if midTime = t then some mid
        else if midTime < t then bsLoop data t (mid + 1) r
        else bsLoop data t left mid
      else if left < data.length then some left else none := by
  by_cases h : left < r
  · obtain ⟨hml, hmr⟩ := bsGo_mid_bounds h
    simp only [bsLoop, bsGo, h, if_true]
    split
    · rfl
    · split
      · exact bsGo_fuel data t (r - left + 1 - 1) (r - ((left + r - 1) / 2 + 1) + 1)
          ((left + r - 1) / 2 + 1) r (by omega) (by omega)
      · exact bsGo_fuel data t (r - left + 1 - 1) ((left + r - 1) / 2 - left + 1)
          left ((left + r - 1) / 2) (by omega) (by omega)
  · simp only [bsLoop, bsGo, h, if_false]

/-- `searchCurDanmaku(time, startIndex = 0)`: `null` when `_data` is absent
or empty, otherwise the binary-search loop over `[startIndex, length-1]`. -/
def searchCurDanmaku (data : Option (List Danmaku)) (t : ℚ) (startIndex : ℕ := 0) :
    Option ℕ :=
  match data with
  | none => none
  | some l => if l.length = 0 then none else bsLoop l t startIndex l.length

/-! ### Lane picking -/

/-- Index of the first list element satisfying `p` (the JS `for` loops in
`pickLine`; for the Bottom branch JS instead copies, reverses, and maps
the found lane back with `indexOf`, which on reference-distinct lane
objects is exactly index arithmetic on the reversed list). -/
def firstIdx (p : α → Bool) : List α → Option ℕ
  | [] => none
  | x :: xs => if p x then some 0 else (firstIdx p xs).map (· + 1)

/-- A lane is usable for a scrolling item when its queue is empty or the
gap between the trailing edge of its last-queued item and the overlay's
far edge (`videoWidth - lastItemRect.right`) is at least `_lineMargin`.
`rightOf` is the DOM geometry oracle (`getBoundingClientRect().right`). -/
def scrollUsable (lineMargin videoW : ℚ) (rightOf : DKey → ℚ) (l : Lane) : Bool :=
  match l.queue.getLast? with
  | none => true
  | some lastItem => decide (lineMargin ≤ videoW - rightOf lastItem.key)

/-- `pickLine(danmakuItem)`: `null` on an empty lane set; for Bottom/Top a
scan (bottom-up for Bottom, top-down for Top) for a lane without a fixed
item; for Float the first lane passing the scroll-margin check. -/
def pickLine (lanes : List Lane) (lineMargin : ℚ) (mode : DanmakuType)
    (rightOf : DKey → ℚ) (videoW : ℚ) : Option ℕ :=
  if lanes.length = 0 then none
  else
    match mode with
    | .Bottom =>
        (firstIdx (fun l => !l.hasFixed) lanes.reverse).map
          (fun j => lanes.length - 1 - j)
    | .Top => firstIdx (fun l => !l.hasFixed) lanes
    | .Float => firstIdx (scrollUsable lineMargin videoW rightOf) lanes

/-! ### Geometry-derived quantities -/

/-- `calDanmakuDuration(danmaku)`: 0 when detached; overlay width divided
by the configured speed for Float; 5 seconds for Bottom/Top. -/
def calDanmakuDuration (attached : Bool) (videoW : ℚ) (mode : DanmakuType) : ℚ :=
  if !attached then 0
  else match mode with
    | .Float => videoW / danmakuSpeed
    | .Bottom => 5
    | .Top => 5

/-- `calAvailableLines()`: 0 when detached; otherwise
`floor(videoHeight / ceil(fontSize * lineSpacing))`.  (For `fontSize ≤ 0`
the JS divides by a nonpositive line height and later misbehaves; the
claims never exercise that corner and all theorem inputs keep the line
height positive.) -/
def calAvailableLines (attached : Bool) (fontSize videoH : ℚ) : ℕ :=
  if !attached then 0
  else (⌊videoH / (⌈fontSize * lineSpacing⌉ : ℚ)⌋).toNat

/-- `updateDanmakuLines()`: resize the lane set to the available line
count — shrink by discarding trailing lanes (whose `clear()` removes the
DOM nodes but, crucially, not the registry entries), grow by appending
empty lanes, no-op when the count is unchanged. -/
def updateDanmakuLines (videoH : ℚ) (e : Engine) : Engine :=
  let availableLines := calAvailableLines e.attached e.fontSize videoH
  if availableLines = e.lanes.length then e
  else if availableLines < e.lanes.length then
    { e with lanes := e.lanes.take availableLines }
  else
    { e with lanes := e.lanes ++ List.replicate (availableLines - e.lanes.length) emptyLane }

/-! ### loadDanmaku (the per-tick scheduling loop)

The JS loop is `while (true)` with two `break`s (no candidate / tolerance
failure) and two `continue`s (already-active skip / lane-exhaustion drop);
the fall-through end of the body is a successful activation.  We expose
one iteration as `loadStep` and run it on fuel.  The loop also records a
ghost trace of the candidates it processed (index, whether the candidate
came from the cached cursor or a fresh binary search, and the action
taken); the trace has no effect on the engine state. -/

/-- Update of a single lane at position `n` (JS mutates the lane object in
the `_danmakuLines` array in place). -/
def modifyLane : List Lane → ℕ → (Lane → Lane) → List Lane
  | [], _, _ => []
  | l :: ls, 0, f => f l :: ls
  | l :: ls, n + 1, f => l :: modifyLane ls n f

/-- Candidate selection at the top of the loop body: the cached cursor if
set and in bounds, otherwise a fresh binary search. -/
def candidate (e : Engine) (now : ℚ) : Option ℕ :=
  match e.nextIdx with
  | some n =>
      if n < (e.data.getD []).length then some n
      else searchCurDanmaku e.data now
  | none => searchCurDanmaku e.data now

/-- Whether `candidate` would take the cached-cursor branch. -/
def fromCursor (e : Engine) : Bool :=
  match e.nextIdx with
  | some n => decide (n < (e.data.getD []).length)
  | none => false

inductive StepKind where
  | skipActive
  | dropped
  | activated
deriving DecidableEq, Repr

structure TraceEntry where
  idx : ℕ
  viaCursor : Bool
  kind : StepKind
deriving DecidableEq, Repr

instance : Inhabited TraceEntry := ⟨⟨0, false, .skipActive⟩⟩

inductive StepRes where
  | exitNoCand
  | exitTol
  | cont (e : Engine) (tr : TraceEntry)

/-- Activation (§ the tail of the loop body): add the danmaku's key to the
registry and the item to the picked lane — `line.push` for Float,
`line.setFixed` for Bottom/Top (`setFixed` silently replaces any existing
fixed item without touching the registry, exactly as in the source). -/
def activate (e : Engine) (i : ℕ) (d : Danmaku) (lineIndex : ℕ) : Engine :=
  let item : VisItem := ⟨e.gen, i, d⟩
  let f : Lane → Lane :=
    if d.mode = .Bottom ∨ d.mode = .Top then
      fun l => { l with fixedItem := some item }
    else
      fun l => { l with queue := l.queue ++ [item] }
  { e with active := setAdd e.active (e.gen, i),
           lanes := modifyLane e.lanes lineIndex f }

/-- One iteration of the `while (true)` body of `loadDanmaku`. -/
def loadStep (rightOf : DKey → ℚ) (videoW now : ℚ) (e : Engine) : StepRes :=
  match candidate e now with
  | none => .exitNoCand
  | some index =>
    let d := (e.data.getD []).getD index default
    if (e.gen, index) ∈ e.active then
      .cont { e with nextIdx := some (index + 1) }
        ⟨index, fromCursor e, .skipActive⟩
    else if 1/10 < |d.time - now| then
      .exitTol
    else
      let e1 := { e with nextIdx := some (index + 1) }
      match pickLine e1.lanes e1.lineMargin d.mode rightOf videoW with
      | none => .cont e1 ⟨index, fromCursor e, .dropped⟩
      | some lineIndex =>
          .cont (activate e1 index d lineIndex)
            ⟨index, fromCursor e, .activated⟩

inductive TickExit where
  | noCandidate
  | tolerance
  | fuelOut
deriving DecidableEq, Repr

/-- The fuelled loop.  On either `break` the engine state of the exiting
iteration is returned untouched (in particular the cursor is exactly what
it was when the exiting iteration began). -/
def loadLoop (rightOf : DKey → ℚ) (videoW now : ℚ) :
    ℕ → Engine → Engine × TickExit × List TraceEntry
  | 0, e => (e, .fuelOut, [])
  | fuel + 1, e =>
    match loadStep rightOf videoW now e with
    | .exitNoCand => (e, .noCandidate, [])
    | .exitTol => (e, .tolerance, [])
    | .cont e' tr =>
        let (e'', x, trs) := loadLoop rightOf videoW now fuel e'
        (e'', x, tr :: trs)

/-- `loadDanmaku(currentTime)`: early return when no data is loaded or the
overlay is hidden, otherwise the loop. -/
def loadDanmaku (rightOf : DKey → ℚ) (videoW now : ℚ) (fuel : ℕ) (e : Engine) : Engine :=
  if e.data.isNone ∨ !e.isVisible then e
  else (loadLoop rightOf videoW now fuel e).1

/-! ### cleanupDanmaku (the per-tick expiry pass)

Animation play states live in the rendering engine; cleanup reads them
through `getAnimations()[0]?.playState`.  The oracle `anim` returns the
play state of an item's animation, or `none` when the item has no
animation (the JS condition removes an item when the state is
`'finished'` **or** absent). -/

inductive PlayState where
  | idle
  | running
  | paused
  | finished
deriving DecidableEq, Repr

def animDone (anim : DKey → Option PlayState) (k : DKey) : Bool :=
  match anim k with
  | some .finished => true
  | none => true
  | _ => false

/-- The `while` over a lane's queue front: returns the removed front run
and the surviving queue (`removed ++ kept = queue`). -/
def cleanQueue (anim : DKey → Option PlayState) :
    List VisItem → List VisItem × List VisItem
  | [] => ([], [])
  | it :: rest =>
    if animDone anim it.key then
      let (rm, keep) := cleanQueue anim rest
      (it :: rm, keep)
    else ([], it :: rest)

/-- Expiry of one lane: drain the finished front of the scroll queue, then
remove the fixed item if its display time has reached its duration.
Returns the cleaned lane and the keys removed from it. -/
def cleanLane (anim : DKey → Option PlayState) (expired : VisItem → Bool)
    (l : Lane) : Lane × List DKey :=
  let (rm, keep) := cleanQueue anim l.queue
  match l.fixedItem with
  | some it =>
      if expired it then
        (⟨keep, none⟩, rm.map VisItem.key ++ [it.key])
      else (⟨keep, some it⟩, rm.map VisItem.key)
  | none => (⟨keep, none⟩, rm.map VisItem.key)

def cleanLanes (anim : DKey → Option PlayState) (expired : VisItem → Bool) :
    List Lane → List Lane × List DKey
  | [] => ([], [])
  | l :: ls =>
      let (l', r) := cleanLane anim expired l
      let (ls', rs) := cleanLanes anim expired ls
      (l' :: ls', r ++ rs)

/-- The fixed-item expiry test: `currentTime - item.danmaku.time >=
calDanmakuDuration(item.danmaku)`. -/
def fixedExpired (attached : Bool) (videoW now : ℚ) (it : VisItem) : Bool :=
  decide (calDanmakuDuration attached videoW it.d.mode ≤ now - it.d.time)

/-- `cleanupDanmaku()`: early return when hidden or detached; otherwise
every lane is cleaned and every removed item's danmaku is deleted from the
registry (JS deletes as it goes; set deletions commute, so deleting the
collected keys at the end yields the same registry). -/
def cleanupDanmaku (anim : DKey → Option PlayState) (videoW now : ℚ)
    (e : Engine) : Engine :=
  if !e.isVisible ∨ !e.attached then e
  else
    let (ls, rm) := cleanLanes anim (fixedExpired e.attached videoW now) e.lanes
    { e with lanes := ls, active := eraseAll e.active rm }

/-! ### Lifecycle operations -/

/-- `_clearInterval()`: stops the timer and resets the cursor, but only
when a timer was actually armed. -/
def clearIntervalF (e : Engine) : Engine :=
  if e.intervalOn then { e with intervalOn := false, nextIdx := none } else e

/-- `_startInterval()`: arms the timer if not armed (no cursor reset). -/
def startIntervalF (e : Engine) : Engine :=
  if e.intervalOn then e else { e with intervalOn := true }

/-- `pause()`: no-op unless Playing; stops the timer, pauses the scroll
animations (a rendering-side effect with no engine-state footprint), and
enters Paused. -/
def pause (e : Engine) : Engine :=
  if e.state ≠ CBState.Playing then e
  else { clearIntervalF e with state := .Paused }

/-- `resume()`: no-op unless Paused; re-arms the timer, resumes the
animations, and enters Playing. -/
def resume (e : Engine) : Engine :=
  if e.state ≠ CBState.Paused then e
  else { startIntervalF e with state := .Playing }

/-- `show()`: no-op unless Hide; makes the overlay visible, arms the
timer, enters Playing, then immediately pauses if the video element
reports itself paused (`videoPaused` is that external report). -/
def show' (videoPaused : Bool) (e : Engine) : Engine :=
  if e.state ≠ CBState.Hide then e
  else
    let e1 := startIntervalF { e with isVisible := true }
    let e2 := { e1 with state := .Playing }
    if e.attached ∧ videoPaused then pause e2 else e2

/-- `hide()`: no-op in Empty; hides the overlay, stops the timer, enters
Hide. -/
def hide (e : Engine) : Engine :=
  if e.state = CBState.Empty then e
  else { clearIntervalF { e with isVisible := false } with state := .Hide }

/-- `detach()`: always stops the timer first; if no video is attached that
is all; otherwise disconnects the observers and listeners, clears every
lane and the lane set, drops the overlay and video references, empties the
registry, resets the cursor, and enters Empty.  `_isVisible` is never
touched. -/
def detach (e : Engine) : Engine :=
  let e0 := clearIntervalF e
  if !e0.attached then e0
  else { e0 with lanes := [], active := [], attached := false,
                 nextIdx := none, state := .Empty }

/-- `attachToVideo(videoElement)`: detaches first when not Empty, stores
the video reference, builds the overlay, sizes the lane set from the video
geometry, and enters Hide. -/
def attachToVideo (videoH : ℚ) (e : Engine) : Engine :=
  let e0 := if e.state ≠ CBState.Empty then detach e else e
  let e1 := { e0 with attached := true }
  let e2 := updateDanmakuLines videoH e1
  { e2 with state := .Hide }

/-- `seek(time)`: clears the cursor. -/
def seek (e : Engine) : Engine := { e with nextIdx := none }

/-- The comparator of the sort in `load` (`(a, b) => a.time - b.time`),
as the corresponding non-strict order. -/
def timeLE (a b : Danmaku) : Prop := a.time ≤ b.time

instance : DecidableRel timeLE := fun a b =>
  inferInstanceAs (Decidable (a.time ≤ b.time))

instance : IsTotal Danmaku timeLE := ⟨fun a b => le_total a.time b.time⟩

instance : IsTrans Danmaku timeLE := ⟨fun _ _ _ h1 h2 => le_trans h1 h2⟩

/-- `_data` sorting on load: JS `Array.prototype.sort` with comparator
`a.time - b.time` is guaranteed stable by the language and sorts
non-decreasingly by time; `List.insertionSort` with the same order is the
stable sort realising it. -/
def sortDanmaku (l : List Danmaku) : List Danmaku :=
  l.insertionSort timeLE

/-- `load(url, format)` with the fetch/decode outcome supplied as `fetch`
(the XHR and the format decoder are external collaborators; `.error`
covers a network failure, a non-200 status, and a decoder reporting a
nonzero code — all reject before `_data` is assigned).  Returns the engine
after the returned promise settles together with the propagated result.
The synchronous part remembers the current state and forces Hide when it
is Playing or Paused; only a successful load swaps `_data` (bumping the
object generation) and replays `show` (and `pause` when it was Paused). -/
def load (fetch : Except String (List Danmaku)) (videoPaused : Bool)
    (e : Engine) : Engine × Except String (List Danmaku) :=
  let previousState := e.state
  let inert := previousState = CBState.Empty ∨ previousState = CBState.Hide
  let e1 := if inert then e else hide e
  match fetch with
  | .error s => (e1, .error s)
  | .ok input =>
      let sorted := sortDanmaku input
      let e2 := { e1 with data := some sorted, gen := e1.gen + 1 }
      let e3 :=
        if inert then e2
        else if previousState = CBState.Playing then
          { show' videoPaused e2 with state := .Playing }
        else
          { pause (show' videoPaused e2) with state := .Paused }
      (e3, .ok sorted)

/-- `setFontSize(size)`: stores the argument unconditionally and returns
the instance — the body contains no validation and no throw. -/
def setFontSize (size : ℚ) (e : Engine) : Engine :=
  { e with fontSize := size }

/-- `setLineMargin(margin)`: throws synchronously on a negative argument
(before any assignment), otherwise stores the margin.  The pair is (engine
state after the call, raised error if any). -/
def setLineMargin (margin : ℚ) (e : Engine) : Engine × Option String :=
  if margin < 0 then (e, some "Line margin must be non-negative")
  else ({ e with lineMargin := margin }, none)

/-! ### The operation alphabet and traces

Every externally triggered entry point of the engine, with its external
inputs (video geometry, playback clock, DOM oracles, fetch outcomes)
packaged as operation parameters.  `tick` is the 100 ms interval callback
(`loadDanmaku` then `cleanupDanmaku`); it only fires while the timer is
armed, and its body is guarded by `if (this._videoElement)`.  `resize` is
the ResizeObserver / IntersectionObserver callback, which exists only
while a video is attached. -/

inductive Op where
  | attach (videoH : ℚ)
  | detachOp
  | loadOp (fetch : Except String (List Danmaku)) (videoPaused : Bool)
  | showOp (videoPaused : Bool)
  | hideOp
  | pauseOp
  | resumeOp
  | seekOp
  | setFontSizeOp (size : ℚ)
  | setLineMarginOp (margin : ℚ)
  | tick (rightOf : DKey → ℚ) (anim : DKey → Option PlayState)
      (videoW now : ℚ) (fuel : ℕ)
  | resize (videoH : ℚ)

def applyOp (e : Engine) : Op → Engine
  | .attach h => attachToVideo h e
  | .detachOp => detach e
  | .loadOp fetch vp => (load fetch vp e).1
  | .showOp vp => show' vp e
  | .hideOp => hide e
  | .pauseOp => pause e
  | .resumeOp => resume e
  | .seekOp => seek e
  | .setFontSizeOp s => setFontSize s e
  | .setLineMarginOp m => (setLineMargin m e).1
  | .tick rightOf anim w now fuel =>
      if e.intervalOn ∧ e.attached then
        cleanupDanmaku anim w now (loadDanmaku rightOf w now fuel e)
      else e
  | .resize h => if e.attached then updateDanmakuLines h e else e

/-- Run a sequence of operations from the freshly constructed engine. -/
def run (ops : List Op) : Engine :=
  ops.foldl applyOp initEngine

/-! ### Concrete example data used by witnesses and counterexamples -/

/-- A one-entry float danmaku record at time `t`. -/
def exD (t : ℚ) : Danmaku := ⟨t, .Float, "#ffffff", "u1", "hello"⟩

/-- attach (video 100×48 → one lane), load one danmaku at t = 1, show,
tick at playback time 1 (activates the danmaku into lane 0). -/
def exOpsPlaying : List Op :=
  [.attach 48, .loadOp (.ok [exD 1]) false, .showOp false,
   .tick (fun _ => 0) (fun _ => some .running) 100 1 5]

/-- The same run followed by a viewport shrink (height 10 → zero lanes),
whose lane clearing does not delete the cleared items from the registry. -/
def exOpsShrink : List Op := exOpsPlaying ++ [.resize 10]

/-! ### Invariants used by the lifecycle and registry theorems -/

/-- In Playing or Paused the overlay visibility flag is set (show is the
only entry into Playing and it sets the flag; hide clears it but leaves
for Hide). -/
def visOK (e : Engine) : Prop :=
  (e.state = CBState.Playing ∨ e.state = CBState.Paused) → e.isVisible = true

/-- Outside Empty a video is attached. -/
def stateAttached (e : Engine) : Prop :=
  e.state ≠ CBState.Empty → e.attached = true

def wfLifecycle (e : Engine) : Prop := visOK e ∧ stateAttached e

/-- Well-formed registry: no duplicate registry entries, no item key held
twice across the lanes, and every key held by a lane is registered. -/
def wfReg (e : Engine) : Prop :=
  e.active.Nodup ∧ (laneBag e.lanes).Nodup ∧
  ∀ k, k ∈ laneBag e.lanes → k ∈ e.active

/-- The claimed invariant: the registry equals (as a set) the union of the
visible items held by all lanes. -/
def regEq (e : Engine) : Prop := ∀ k, k ∈ e.active ↔ k ∈ laneBag e.lanes

/-- A lane-set shrink to `n` lanes discards no visible item (the discarded
trailing lanes are all empty). -/
def shrinkSafeB (ls : List Lane) (n : ℕ) : Bool := (laneBag (ls.drop n)).isEmpty

/-- Which operations can break the registry/lane equality: only a
lane-set resize (or the resize performed inside `attach`) that discards a
lane still holding visible items — its `clear()` removes the DOM nodes
but not the registry entries. -/
def opSafeB (e : Engine) : Op → Bool
  | .resize h =>
      !e.attached || shrinkSafeB e.lanes (calAvailableLines e.attached e.fontSize h)
  | .attach h =>
      if e.state = CBState.Empty ∨ e.attached = false then
        shrinkSafeB e.lanes (calAvailableLines true e.fontSize h)
      else true
  | _ => true

def safeTraceB : Engine → List Op → Bool
  | _, [] => true
  | e, op :: ops => opSafeB e op && safeTraceB (applyOp e op) ops

/-! ## Theorems -/

/-! ### Field bookkeeping lemmas -/

theorem hide_data (e : Engine) : (hide e).data = e.data := by
  unfold hide clearIntervalF
  split_ifs <;> rfl

theorem hide_state (e : Engine) (h : e.state ≠ CBState.Empty) :
    (hide e).state = CBState.Hide := by
  unfold hide
  rw [if_neg h]

/-- C10: `setFontSize(n)` performs no validation and never throws — it is a
total function that stores any argument (including zero and negative) as
the font size and returns the engine instance; `setLineMargin` by contrast
raises synchronously on a negative argument, leaving the stored margin
(indeed the whole engine state) unchanged, and stores the margin with no
error otherwise. -/
theorem claim_C10 (e : Engine) (n : ℚ) :
    setFontSize n e = { e with fontSize := n } ∧
    (n < 0 → setLineMargin n e = (e, some "Line margin must be non-negative")) ∧
    (¬ n < 0 → setLineMargin n e = ({ e with lineMargin := n }, none)) := by
  refine ⟨rfl, fun h => ?_, fun h => ?_⟩ <;> simp [setLineMargin, h]

theorem claim_C10_witness :
    setFontSize (-1) initEngine = { initEngine with fontSize := -1 } ∧
    setLineMargin (-1) initEngine = (initEngine, some "Line margin must be non-negative") :=
  ⟨(claim_C10 initEngine (-1)).1, (claim_C10 initEngine (-1)).2.1 (by norm_num)⟩

/-- C8: from the Playing state, `pause()` followed by `resume()` leaves the
Active-Item Registry and the contents of every lane exactly as they were
(no visible item is created, removed, or moved), and the lifecycle returns
to Playing. -/
theorem claim_C8 (e : Engine) (h : e.state = CBState.Playing) :
    (resume (pause e)).active = e.active ∧
    (resume (pause e)).lanes = e.lanes ∧
    (resume (pause e)).state = CBState.Playing := by
  unfold pause resume clearIntervalF startIntervalF
  simp only [h]
  split_ifs <;> simp_all

theorem claim_C8_witness :
    (resume (pause (run exOpsPlaying))).active = (run exOpsPlaying).active ∧
    (resume (pause (run exOpsPlaying))).lanes = (run exOpsPlaying).lanes ∧
    (resume (pause (run exOpsPlaying))).state = CBState.Playing :=
  claim_C8 (run exOpsPlaying) (by decide)

/-! ### Binary search (C2) -/

theorem bsLoop_spec (data : List Danmaku) (t : ℚ)
    (hs : List.Sorted (fun a b : Danmaku => a.time ≤ b.time) data) :
    ∀ fuel left r, r - left ≤ fuel → r ≤ data.length →
    (∀ j, j < left → j < data.length → (data.getD j default).time < t) →
    (∀ j, r ≤ j → j < data.length → t < (data.getD j default).time) →
    match bsLoop data t left r with
    | some i => i < data.length ∧ t ≤ (data.getD i default).time ∧
        ∀ j, j < i → (data.getD j default).time ≤ t
    | none => ∀ j, j < data.length → (data.getD j default).time < t := by
  have hmono : ∀ i j, i ≤ j → j < data.length →
      (data.getD i default).time ≤ (data.getD j default).time := by
    intro i j hij hj
    rcases eq_or_lt_of_le hij with rfl | hlt
    · exact le_refl _
    · have hi : i < data.length := lt_trans hlt hj
      rw [List.getD_eq_getElem data default hi, List.getD_eq_getElem data default hj]
      exact List.pairwise_iff_getElem.mp hs i j hi hj hlt
  have hexit : ∀ left r, ¬ left < r → r ≤ data.length →
      (∀ j, j < left → j < data.length → (data.getD j default).time < t) →
      (∀ j, r ≤ j → j < data.length → t < (data.getD j default).time) →
      match bsLoop data t left r with
      | some i => i < data.length ∧ t ≤ (data.getD i default).time ∧
          ∀ j, j < i → (data.getD j default).time ≤ t
      | none => ∀ j, j < data.length → (data.getD j default).time < t := by
    intro left r h hr h1 h2
    rw [bsLoop_unfold, if_neg h]
    by_cases hlen : left < data.length
    · rw [if_pos hlen]
      exact ⟨hlen, le_of_lt (h2 left (by omega) hlen),
        fun j hj => le_of_lt (h1 j hj (lt_trans hj hlen))⟩
    · rw [if_neg hlen]
      intro j hj
      exact h1 j (by omega) hj
  intro fuel
  induction fuel with
  | zero =>
    intro left r hf hr h1 h2
    exact hexit left r (by omega) hr h1 h2
  | succ fuel ih =>
    intro left r hf hr h1 h2
    by_cases h : left < r
    · obtain ⟨hml, hmr⟩ := bsGo_mid_bounds h
      have hmlen : (left + r - 1) / 2 < data.length := lt_of_lt_of_le hmr hr
      rw [bsLoop_unfold, if_pos h]
      dsimp only
      by_cases heq : (data.getD ((left + r - 1) / 2) default).time = t
      · rw [if_pos heq]
        refine ⟨hmlen, le_of_eq heq.symm, fun j hj => ?_⟩
        calc (data.getD j default).time
            ≤ (data.getD ((left + r - 1) / 2) default).time :=
              hmono j _ (le_of_lt hj) hmlen
          _ = t := heq
      · rw [if_neg heq]
        by_cases hlt : (data.getD ((left + r - 1) / 2) default).time < t
        · rw [if_pos hlt]
          refine ih ((left + r - 1) / 2 + 1) r (by omega) hr ?_ h2
          intro j hj hjlen
          exact lt_of_le_of_lt (hmono j _ (by omega) hmlen) hlt
        · rw [if_neg hlt]
          have hgt : t < (data.getD ((left + r - 1) / 2) default).time :=
            lt_of_le_of_ne (le_of_not_lt hlt) (fun hh => heq hh.symm)
          refine ih left ((left + r - 1) / 2) (by omega) (le_of_lt hmlen) h1 ?_
          intro j hj hjlen
          exact lt_of_lt_of_le hgt (hmono _ j hj hjlen)
    · exact hexit left r h hr h1 h2

/-- C2 counterexample: on the ascending collection with times `[1, 1, 2]`
and query time 1 the search returns index 1, although index 0 already has
time ≥ 1 — the equality early-exit of the loop lands mid-run of equal
times, so the result is not the leftmost entry with time ≥ query. -/
theorem claim_C2_counterexample :
    List.Sorted (fun a b : Danmaku => a.time ≤ b.time) [exD 1, exD 1, exD 2] ∧
    searchCurDanmaku (some [exD 1, exD 1, exD 2]) 1 = some 1 ∧
    (1 : ℚ) ≤ (([exD 1, exD 1, exD 2].getD 0 default)).time := by
  refine ⟨?_, ?_, ?_⟩
  · decide
  · rfl
  · decide

/-- C2 (amended): for a collection sorted ascending by time,
`searchCurDanmaku` returns an index whose entry's time is ≥ the query time
and before which every entry's time is ≤ the query time; when no entry's
time equals the query exactly this is the leftmost index with time ≥ the
query (with equal-time runs containing the query, the returned index may
fall inside the run rather than at its start).  It returns none exactly
when every entry's time is strictly smaller than the query, and always
none for an empty or absent collection. -/
theorem claim_C2 (data : List Danmaku) (t : ℚ)
    (hs : List.Sorted (fun a b : Danmaku => a.time ≤ b.time) data) :
    searchCurDanmaku none t = none ∧
    (data = [] → searchCurDanmaku (some data) t = none) ∧
    (∀ i, searchCurDanmaku (some data) t = some i →
       i < data.length ∧ t ≤ (data.getD i default).time ∧
       (∀ j, j < i → (data.getD j default).time ≤ t) ∧
       ((∀ j, j < data.length → (data.getD j default).time ≠ t) →
         ∀ j, j < data.length → t ≤ (data.getD j default).time → i ≤ j)) ∧
    (searchCurDanmaku (some data) t = none →
       ∀ j, j < data.length → (data.getD j default).time < t) ∧
    ((∀ j, j < data.length → (data.getD j default).time < t) →
       searchCurDanmaku (some data) t = none) := by
  have hspec := bsLoop_spec data t hs (data.length - 0) 0 data.length
    (by omega) (le_refl _) (by omega) (by omega)
  refine ⟨rfl, ?_, ?_, ?_, ?_⟩
  · intro h
    simp [searchCurDanmaku, h]
  · intro i hi
    by_cases hempty : data.length = 0
    · simp [searchCurDanmaku, hempty] at hi
    · simp only [searchCurDanmaku, hempty, if_false] at hi
      rw [hi] at hspec
      refine ⟨hspec.1, hspec.2.1, hspec.2.2, ?_⟩
      intro hne j hjlen hjt
      by_contra hlt
      have := hspec.2.2 j (by omega)
      exact hne j hjlen (le_antisymm this hjt)
  · intro hnone
    by_cases hempty : data.length = 0
    · intro j hj
      omega
    · simp only [searchCurDanmaku, hempty, if_false] at hnone
      rw [hnone] at hspec
      exact hspec
  · intro hall
    by_cases hempty : data.length = 0
    · simp [searchCurDanmaku, hempty]
    · simp only [searchCurDanmaku, hempty, if_false]
      cases hres : bsLoop data t 0 data.length with
      | none => rfl
      | some i =>
        rw [hres] at hspec
        exact absurd hspec.2.1 (not_le.mpr (hall i hspec.1))

theorem claim_C2_witness :
    searchCurDanmaku (some [exD 1, exD 2, exD 3]) 2 = some 1 ∧
    (2 : ℚ) ≤ ([exD 1, exD 2, exD 3].getD 1 default).time ∧
    (∀ j, j < 1 → ([exD 1, exD 2, exD 3].getD j default).time ≤ 2) := by
  have h := (claim_C2 [exD 1, exD 2, exD 3] 2 (by decide)).2.2.1 1 (by rfl)
  exact ⟨by rfl, h.2.1, h.2.2.1⟩

/-- C6 counterexample: a failing load called while Playing does not restore
the Playing state — the engine was forced to Hide before the fetch and the
restore code only runs on success, so after the failure the state is Hide,
not the state the engine was in when `load` was called. -/
theorem claim_C6_counterexample :
    (run [Op.attach 48, Op.showOp false]).state = CBState.Playing ∧
    (load (.error "HTTP error! status: 500") false
        (run [Op.attach 48, Op.showOp false])).1.state = CBState.Hide ∧
    CBState.Hide ≠ CBState.Playing := by
  decide

/-- C6 (amended): for every failing load the error is surfaced to the
caller as a rejected result and the Annotation Collection is left
unchanged; the lifecycle, however, is only preserved when `load` was
called from Empty or Hide — when called from Playing or Paused the engine
was transitioned to Hide before the fetch and remains in Hide after the
failure. -/
theorem claim_C6 (e : Engine) (err : String) (vp : Bool) :
    (load (.error err) vp e).2 = .error err ∧
    (load (.error err) vp e).1.data = e.data ∧
    (load (.error err) vp e).1.state =
      (if e.state = CBState.Empty ∨ e.state = CBState.Hide then e.state
       else CBState.Hide) := by
  by_cases hi : e.state = CBState.Empty ∨ e.state = CBState.Hide
  · simp [load, hi]
  · have h1 : e.state ≠ CBState.Empty := fun h => hi (Or.inl h)
    simp [load, hi, hide_data, hide_state e h1]

/-! ### Stable sorting (C7) -/

theorem filter_orderedInsert_of_pos (p : Danmaku → Bool) (a : Danmaku)
    (hpa : p a = true) (hbefore : ∀ b, ¬ timeLE a b → p b = false) :
    ∀ l : List Danmaku,
      (List.orderedInsert timeLE a l).filter p = a :: l.filter p := by
  intro l
  induction l with
  | nil => simp [List.orderedInsert, hpa]
  | cons b l ih =>
    by_cases h : timeLE a b
    · simp [List.orderedInsert, h, hpa]
    · have hpb : p b = false := hbefore b h
      simp [List.orderedInsert, h, hpb, ih]

theorem filter_orderedInsert_of_neg (p : Danmaku → Bool) (a : Danmaku)
    (hpa : p a = false) :
    ∀ l : List Danmaku,
      (List.orderedInsert timeLE a l).filter p = l.filter p := by
  intro l
  induction l with
  | nil => simp [List.orderedInsert, hpa]
  | cons b l ih =>
    by_cases h : timeLE a b <;>
      simp [List.orderedInsert, List.filter_cons, h, hpa, ih]

/-- C7: after every successful load the stored collection is sorted
non-decreasing by time; it is a permutation of the input sequence (every
input record represented exactly once); and for every time value the
subsequence of entries with that exact time equals the corresponding
subsequence of the input — i.e. ties preserve the input order (stability). -/
theorem claim_C7 (input : List Danmaku) :
    List.Sorted timeLE (sortDanmaku input) ∧
    List.Perm (sortDanmaku input) input ∧
    ∀ t : ℚ, (sortDanmaku input).filter (fun x => decide (x.time = t)) =
             input.filter (fun x => decide (x.time = t)) := by
  refine ⟨List.sorted_insertionSort timeLE input,
    List.perm_insertionSort timeLE input, ?_⟩
  intro t
  induction input with
  | nil => rfl
  | cons a l ih =>
    simp only [sortDanmaku] at ih ⊢
    simp only [List.insertionSort]
    by_cases hpa : a.time = t
    · rw [filter_orderedInsert_of_pos _ a (by simp [hpa]) ?_, ih]
      · simp [List.filter_cons, hpa]
      · intro b hb
        simp only [timeLE, not_le] at hb
        have : b.time ≠ t := by rw [← hpa]; exact ne_of_lt hb
        simp [this]
    · rw [filter_orderedInsert_of_neg _ a (by simp [hpa]), ih]
      simp [List.filter_cons, hpa]

/-! ### Lane picking (C5) -/

theorem firstIdx_some {α : Type} [Inhabited α] (p : α → Bool) :
    ∀ (l : List α) (i : ℕ), firstIdx p l = some i ↔
      (i < l.length ∧ p (l.getD i default) = true ∧
       ∀ j, j < i → p (l.getD j default) = false) := by
  intro l
  induction l with
  | nil => intro i; simp [firstIdx]
  | cons x xs ih =>
    intro i
    by_cases hx : p x
    · constructor
      · intro h
        simp only [firstIdx, hx, if_true] at h
        obtain rfl : (0 : ℕ) = i := Option.some.inj h
        exact ⟨Nat.succ_pos _, by simpa using hx, fun j hj => absurd hj (Nat.not_lt_zero j)⟩
      · rintro ⟨hi, hpi, hall⟩
        rcases Nat.eq_zero_or_pos i with rfl | hpos
        · simp [firstIdx, hx]
        · have := hall 0 hpos
          simp only [List.getD_cons_zero] at this
          rw [this] at hx
          exact Bool.noConfusion hx
    · have hxf : p x = false := by simpa using hx
      constructor
      · intro h
        simp only [firstIdx, hxf, Bool.false_eq_true, if_false, Option.map_eq_some'] at h
        obtain ⟨i', hi', rfl⟩ := h
        obtain ⟨h1, h2, h3⟩ := (ih i').mp hi'
        refine ⟨by simpa using h1, by simpa using h2, ?_⟩
        intro j hj
        cases j with
        | zero => simpa using hxf
        | succ j' => simpa using h3 j' (by omega)
      · rintro ⟨hi, hpi, hall⟩
        cases i with
        | zero =>
          rw [List.getD_cons_zero] at hpi
          rw [hpi] at hxf
          exact absurd hxf (by simp)
        | succ i' =>
          have : firstIdx p xs = some i' := by
            refine (ih i').mpr ⟨by simpa using hi, by simpa using hpi, ?_⟩
            intro j hj
            have := hall (j + 1) (by omega)
            simpa using this
          simp [firstIdx, hxf, this]

theorem firstIdx_none {α : Type} [Inhabited α] (p : α → Bool) :
    ∀ l : List α, firstIdx p l = none ↔
      ∀ j, j < l.length → p (l.getD j default) = false := by
  intro l
  induction l with
  | nil => simp [firstIdx]
  | cons x xs ih =>
    by_cases hx : p x
    · simp only [firstIdx, hx, if_true]
      constructor
      · intro h; exact absurd h (by simp)
      · intro h
        have := h 0 (Nat.succ_pos _)
        rw [List.getD_cons_zero] at this
        rw [this] at hx
        exact Bool.noConfusion hx
    · have hxf : p x = false := by simpa using hx
      simp only [firstIdx, hxf, Bool.false_eq_true, if_false, Option.map_eq_none']
      rw [ih]
      constructor
      · intro h j hj
        simp only [List.length_cons] at hj
        cases j with
        | zero => simpa using hxf
        | succ j' => simpa using h j' (by omega)
      · intro h j hj
        have := h (j + 1) (by simp only [List.length_cons]; omega)
        simpa using this

theorem getD_reverse {α : Type} [Inhabited α] (l : List α) (j : ℕ)
    (hj : j < l.length) :
    l.reverse.getD j default = l.getD (l.length - 1 - j) default := by
  have hjr : j < l.reverse.length := by simpa using hj
  have hlen : l.length - 1 - j < l.length := by omega
  rw [List.getD_eq_getElem _ default hjr, List.getD_eq_getElem _ default hlen]
  exact List.getElem_reverse hjr

/-- `scrollUsable` unfolded to the geometric condition of the claim. -/
theorem scrollUsable_iff (lm videoW : ℚ) (rightOf : DKey → ℚ) (l : Lane) :
    scrollUsable lm videoW rightOf l = true ↔
      (l.queue = [] ∨ ∃ lastItem, l.queue.getLast? = some lastItem ∧
        lm ≤ videoW - rightOf lastItem.key) := by
  unfold scrollUsable
  cases h : l.queue.getLast? with
  | none =>
    simp only [true_iff]
    exact Or.inl (List.getLast?_eq_none_iff.mp h)
  | some lastItem =>
    simp only [decide_eq_true_eq]
    constructor
    · intro hm
      exact Or.inr ⟨lastItem, rfl, hm⟩
    · rintro (hq | ⟨b, hb, hm⟩)
      · rw [hq] at h
        exact Option.noConfusion h
      · obtain rfl : lastItem = b := Option.some.inj hb
        exact hm

theorem pickLine_bottom_eq (lanes : List Lane) (lm videoW : ℚ)
    (rightOf : DKey → ℚ) (i : ℕ) :
    pickLine lanes lm .Bottom rightOf videoW = some i ↔
      (i < lanes.length ∧ (lanes.getD i default).fixedItem = none ∧
       ∀ j, i < j → j < lanes.length → (lanes.getD j default).fixedItem ≠ none) := by
  have hfix : ∀ l : Lane, (!l.hasFixed) = true ↔ l.fixedItem = none := by
    intro l
    cases h : l.fixedItem <;> simp [Lane.hasFixed, h]
  have hfix2 : ∀ l : Lane, l.fixedItem ≠ none → (!l.hasFixed) = false := by
    intro l hne
    cases h : l.fixedItem with
    | none => exact absurd h hne
    | some it => simp [Lane.hasFixed, h]
  by_cases hlen : lanes.length = 0
  · rw [List.length_eq_zero] at hlen
    subst hlen
    simp [pickLine]
  · simp only [pickLine, hlen, if_false]
    constructor
    · intro h
      simp only [Option.map_eq_some'] at h
      obtain ⟨j, hj, rfl⟩ := h
      obtain ⟨hjlen, hpj, hjall⟩ := (firstIdx_some _ _ j).mp hj
      rw [List.length_reverse] at hjlen
      rw [getD_reverse _ j hjlen] at hpj
      refine ⟨by omega, (hfix _).mp hpj, ?_⟩
      intro k hk hklen
      intro hknone
      have hk' : lanes.length - 1 - k < j := by omega
      have := hjall (lanes.length - 1 - k) hk'
      rw [getD_reverse _ _ (by omega)] at this
      have hkk : lanes.length - 1 - (lanes.length - 1 - k) = k := by omega
      rw [hkk] at this
      rw [(hfix _).mpr hknone] at this  -- hmm wrong direction; fix below
      exact Bool.noConfusion this
    · rintro ⟨hi, hnone, hall⟩
      have hj : firstIdx (fun l => !l.hasFixed) lanes.reverse =
          some (lanes.length - 1 - i) := by
        refine (firstIdx_some _ _ _).mpr ⟨by simpa using by omega, ?_, ?_⟩
        · rw [getD_reverse _ _ (by omega)]
          have : lanes.length - 1 - (lanes.length - 1 - i) = i := by omega
          rw [this]
          exact (hfix _).mpr hnone
        · intro j hj
          rw [getD_reverse _ _ (by omega)]
          have hgt : i < lanes.length - 1 - j := by omega
          exact hfix2 _ (hall (lanes.length - 1 - j) hgt (by omega))
      rw [hj]
      simp only [Option.map_eq_some']
      exact ⟨lanes.length - 1 - i, rfl, by omega⟩

theorem pickLine_top_eq (lanes : List Lane) (lm videoW : ℚ)
    (rightOf : DKey → ℚ) (i : ℕ) :
    pickLine lanes lm .Top rightOf videoW = some i ↔
      (i < lanes.length ∧ (lanes.getD i default).fixedItem = none ∧
       ∀ j, j < i → (lanes.getD j default).fixedItem ≠ none) := by
  have hfix : ∀ l : Lane, (!l.hasFixed) = true ↔ l.fixedItem = none := by
    intro l
    cases h : l.fixedItem <;> simp [Lane.hasFixed, h]
  have hfix2 : ∀ l : Lane, l.fixedItem ≠ none → (!l.hasFixed) = false := by
    intro l hne
    cases h : l.fixedItem with
    | none => exact absurd h hne
    | some it => simp [Lane.hasFixed, h]
  by_cases hlen : lanes.length = 0
  · rw [List.length_eq_zero] at hlen
    subst hlen
    simp [pickLine]
  · simp only [pickLine, hlen, if_false]
    rw [firstIdx_some]
    constructor
    · rintro ⟨h1, h2, h3⟩
      refine ⟨h1, (hfix _).mp h2, ?_⟩
      intro j hj hnone
      have := h3 j hj
      rw [(hfix _).mpr hnone] at this
      exact Bool.noConfusion this
    · rintro ⟨h1, h2, h3⟩
      refine ⟨h1, (hfix _).mpr h2, ?_⟩
      intro j hj
      exact hfix2 _ (h3 j hj)

theorem pickLine_float_eq (lanes : List Lane) (lm videoW : ℚ)
    (rightOf : DKey → ℚ) (i : ℕ) :
    pickLine lanes lm .Float rightOf videoW = some i ↔
      (i < lanes.length ∧ scrollUsable lm videoW rightOf (lanes.getD i default) = true ∧
       ∀ j, j < i → scrollUsable lm videoW rightOf (lanes.getD j default) = false) := by
  by_cases hlen : lanes.length = 0
  · rw [List.length_eq_zero] at hlen
    subst hlen
    simp [pickLine]
  · simp only [pickLine, hlen, if_false]
    exact firstIdx_some _ lanes i

theorem pickLine_float_none (lanes : List Lane) (lm videoW : ℚ)
    (rightOf : DKey → ℚ) :
    pickLine lanes lm .Float rightOf videoW = none ↔
      ∀ i, i < lanes.length →
        scrollUsable lm videoW rightOf (lanes.getD i default) = false := by
  by_cases hlen : lanes.length = 0
  · rw [List.length_eq_zero] at hlen
    subst hlen
    simp [pickLine]
  · simp only [pickLine, hlen, if_false]
    exact firstIdx_none _ lanes

theorem pickLine_top_none (lanes : List Lane) (lm videoW : ℚ)
    (rightOf : DKey → ℚ) :
    pickLine lanes lm .Top rightOf videoW = none ↔
      ∀ i, i < lanes.length → (lanes.getD i default).fixedItem ≠ none := by
  have hfix : ∀ l : Lane, (!l.hasFixed) = false ↔ l.fixedItem ≠ none := by
    intro l
    cases h : l.fixedItem <;> simp [Lane.hasFixed, h]
  by_cases hlen : lanes.length = 0
  · rw [List.length_eq_zero] at hlen
    subst hlen
    simp [pickLine]
  · simp only [pickLine, hlen, if_false]
    rw [firstIdx_none]
    constructor
    · intro h i hi
      exact (hfix _).mp (h i hi)
    · intro h i hi
      exact (hfix _).mpr (h i hi)

theorem pickLine_bottom_none (lanes : List Lane) (lm videoW : ℚ)
    (rightOf : DKey → ℚ) :
    pickLine lanes lm .Bottom rightOf videoW = none ↔
      ∀ i, i < lanes.length → (lanes.getD i default).fixedItem ≠ none := by
  have hfix : ∀ l : Lane, (!l.hasFixed) = false ↔ l.fixedItem ≠ none := by
    intro l
    cases h : l.fixedItem <;> simp [Lane.hasFixed, h]
  by_cases hlen : lanes.length = 0
  · rw [List.length_eq_zero] at hlen
    subst hlen
    simp [pickLine]
  · simp only [pickLine, hlen, if_false, Option.map_eq_none']
    rw [firstIdx_none]
    constructor
    · intro h i hi
      have hrev : lanes.length - 1 - i < lanes.reverse.length := by
        simp only [List.length_reverse]
        omega
      have := h (lanes.length - 1 - i) hrev
      rw [getD_reverse _ _ (by omega)] at this
      have hii : lanes.length - 1 - (lanes.length - 1 - i) = i := by omega
      rw [hii] at this
      exact (hfix _).mp this
    · intro h j hj
      simp only [List.length_reverse] at hj
      rw [getD_reverse _ _ hj]
      exact (hfix _).mpr (h (lanes.length - 1 - j) (by omega))

/-- C5: `pickLine` characterised per mode.  For a Scroll (Float) item it
returns the smallest lane index whose queue is empty or whose last-queued
item leaves a gap of at least the configured line margin to the overlay's
far edge, and none when no lane qualifies.  For a Bottom item it returns
the first lane without a fixed item scanning from the last lane upward;
for a Top item the first such lane scanning from the first lane downward;
in both fixed modes it returns none exactly when every lane holds a fixed
item (and trivially when there are no lanes). -/
theorem claim_C5 (lanes : List Lane) (lm videoW : ℚ) (rightOf : DKey → ℚ) :
    (∀ i, pickLine lanes lm .Float rightOf videoW = some i ↔
       (i < lanes.length ∧
        ((lanes.getD i default).queue = [] ∨
          ∃ lastItem, (lanes.getD i default).queue.getLast? = some lastItem ∧
            lm ≤ videoW - rightOf lastItem.key) ∧
        ∀ j, j < i →
          ¬ ((lanes.getD j default).queue = [] ∨
             ∃ lastItem, (lanes.getD j default).queue.getLast? = some lastItem ∧
               lm ≤ videoW - rightOf lastItem.key))) ∧
    (pickLine lanes lm .Float rightOf videoW = none ↔
       ∀ i, i < lanes.length →
         ¬ ((lanes.getD i default).queue = [] ∨
            ∃ lastItem, (lanes.getD i default).queue.getLast? = some lastItem ∧
              lm ≤ videoW - rightOf lastItem.key)) ∧
    (∀ i, pickLine lanes lm .Top rightOf videoW = some i ↔
       (i < lanes.length ∧ (lanes.getD i default).fixedItem = none ∧
        ∀ j, j < i → (lanes.getD j default).fixedItem ≠ none)) ∧
    (pickLine lanes lm .Top rightOf videoW = none ↔
       ∀ i, i < lanes.length → (lanes.getD i default).fixedItem ≠ none) ∧
    (∀ i, pickLine lanes lm .Bottom rightOf videoW = some i ↔
       (i < lanes.length ∧ (lanes.getD i default).fixedItem = none ∧
        ∀ j, i < j → j < lanes.length → (lanes.getD j default).fixedItem ≠ none)) ∧
    (pickLine lanes lm .Bottom rightOf videoW = none ↔
       ∀ i, i < lanes.length → (lanes.getD i default).fixedItem ≠ none) := by
  have husable : ∀ l : Lane, scrollUsable lm videoW rightOf l = false ↔
      ¬ (l.queue = [] ∨ ∃ lastItem, l.queue.getLast? = some lastItem ∧
          lm ≤ videoW - rightOf lastItem.key) := by
    intro l
    rw [← scrollUsable_iff]
    cases scrollUsable lm videoW rightOf l <;> simp
  refine ⟨?_, ?_, pickLine_top_eq lanes lm videoW rightOf,
    pickLine_top_none lanes lm videoW rightOf,
    pickLine_bottom_eq lanes lm videoW rightOf,
    pickLine_bottom_none lanes lm videoW rightOf⟩
  · intro i
    rw [pickLine_float_eq, scrollUsable_iff]
    constructor
    · rintro ⟨h1, h2, h3⟩
      exact ⟨h1, h2, fun j hj => (husable _).mp (h3 j hj)⟩
    · rintro ⟨h1, h2, h3⟩
      exact ⟨h1, h2, fun j hj => (husable _).mpr (h3 j hj)⟩
  · rw [pickLine_float_none]
    constructor
    · intro h i hi
      exact (husable _).mp (h i hi)
    · intro h i hi
      exact (husable _).mpr (h i hi)

/-! ### The per-tick loop (C3, C4) -/

theorem fromCursor_candidate (e : Engine) (now : ℚ) (h : fromCursor e = true) :
    candidate e now = e.nextIdx := by
  unfold fromCursor at h
  unfold candidate
  cases hn : e.nextIdx with
  | none => rw [hn] at h; exact Bool.noConfusion h
  | some n =>
    rw [hn] at h
    simp only [decide_eq_true_eq] at h
    simp [h]

/-- Every continuing iteration of the loop advances the cursor past the
candidate it processed, and records that candidate in its trace entry. -/
theorem loadStep_cont_spec (rightOf : DKey → ℚ) (videoW now : ℚ) (e e' : Engine)
    (tr : TraceEntry) (h : loadStep rightOf videoW now e = .cont e' tr) :
    e'.nextIdx = some (tr.idx + 1) ∧ candidate e now = some tr.idx ∧
      tr.viaCursor = fromCursor e := by
  unfold loadStep at h
  cases hcand : candidate e now with
  | none =>
    rw [hcand] at h
    exact StepRes.noConfusion h
  | some idx =>
    simp only [hcand] at h
    by_cases hmem : (e.gen, idx) ∈ e.active
    · rw [if_pos hmem] at h
      injection h with he htr
      subst he
      subst htr
      exact ⟨rfl, rfl, rfl⟩
    · rw [if_neg hmem] at h
      by_cases htol : 1/10 < |((e.data.getD []).getD idx default).time - now|
      · rw [if_pos htol] at h
        exact StepRes.noConfusion h
      · rw [if_neg htol] at h
        cases hpick : pickLine { e with nextIdx := some (idx + 1) }.lanes
            { e with nextIdx := some (idx + 1) }.lineMargin
            ((e.data.getD []).getD idx default).mode rightOf videoW with
        | none =>
          rw [hpick] at h
          injection h with he htr
          subst he
          subst htr
          exact ⟨rfl, rfl, rfl⟩
        | some li =>
          rw [hpick] at h
          injection h with he htr
          subst he
          subst htr
          exact ⟨rfl, rfl, rfl⟩

/-- Along the trace of a run of the loop, a cursor-sourced candidate
immediately follows its predecessor: its index is the predecessor's
index + 1 (the head entry, if cursor-sourced, carries the incoming
cursor value). -/
theorem loadLoop_trace_mono (rightOf : DKey → ℚ) (videoW now : ℚ) :
    ∀ (fuel : ℕ) (e : Engine),
      (∀ tr trs, (loadLoop rightOf videoW now fuel e).2.2 = tr :: trs →
         tr.viaCursor = true → e.nextIdx = some tr.idx) ∧
      (∀ k, k + 1 < (loadLoop rightOf videoW now fuel e).2.2.length →
         (((loadLoop rightOf videoW now fuel e).2.2.getD (k+1) default).viaCursor = true) →
         ((loadLoop rightOf videoW now fuel e).2.2.getD k default).idx <
         ((loadLoop rightOf videoW now fuel e).2.2.getD (k+1) default).idx) := by
  intro fuel
  induction fuel with
  | zero =>
    intro e
    refine ⟨fun tr trs h _ => List.noConfusion h, fun k hk _ => ?_⟩
    simp [loadLoop] at hk
  | succ fuel ih =>
    intro e
    cases hstep : loadStep rightOf videoW now e with
    | exitNoCand =>
      refine ⟨fun tr trs h _ => ?_, fun k hk _ => ?_⟩
      · simp only [loadLoop, hstep] at h
        exact List.noConfusion h
      · simp [loadLoop, hstep] at hk
    | exitTol =>
      refine ⟨fun tr trs h _ => ?_, fun k hk _ => ?_⟩
      · simp only [loadLoop, hstep] at h
        exact List.noConfusion h
      · simp [loadLoop, hstep] at hk
    | cont e' tr0 =>
      obtain ⟨hnext, hcand, hvia⟩ := loadStep_cont_spec rightOf videoW now e e' tr0 hstep
      have htrace : (loadLoop rightOf videoW now (fuel + 1) e).2.2 =
          tr0 :: (loadLoop rightOf videoW now fuel e').2.2 := by
        simp only [loadLoop, hstep]
      constructor
      · intro tr trs h hc
        rw [htrace] at h
        obtain ⟨rfl, _⟩ : tr0 = tr ∧ (loadLoop rightOf videoW now fuel e').2.2 = trs :=
          ⟨(List.cons.inj h).1, (List.cons.inj h).2⟩
        rw [hvia] at hc
        rw [fromCursor_candidate e now hc] at hcand
        exact hcand
      · intro k hk hc
        rw [htrace] at hk hc ⊢
        cases k with
        | zero =>
          simp only [List.length_cons] at hk
          cases htl : (loadLoop rightOf videoW now fuel e').2.2 with
          | nil => rw [htl] at hk; simp at hk
          | cons tr1 trs1 =>
            rw [htl] at hc
            simp only [List.getD_cons_succ, List.getD_cons_zero] at hc ⊢
            have := (ih e').1 tr1 trs1 htl hc
            rw [hnext] at this
            have hidx : tr1.idx = tr0.idx + 1 := (Option.some.inj this).symm
            omega
        | succ k' =>
          simp only [List.length_cons] at hk
          simp only [List.getD_cons_succ] at hc ⊢
          exact (ih e').2 k' (by omega) hc

/-- Strict index growth over any search-free stretch of the trace. -/
theorem trace_mono_segment (trs : List TraceEntry)
    (hadj : ∀ k, k + 1 < trs.length → (trs.getD (k+1) default).viaCursor = true →
      (trs.getD k default).idx < (trs.getD (k+1) default).idx) :
    ∀ m k, m < trs.length → k < m →
      (∀ j, k < j → j ≤ m → (trs.getD j default).viaCursor = true) →
      (trs.getD k default).idx < (trs.getD m default).idx := by
  intro m
  induction m with
  | zero => omega
  | succ m ih =>
    intro k hm hk hvia
    rcases Nat.lt_or_ge k m with hkm | hkm
    · have h1 := ih k (by omega) hkm (fun j hj1 hj2 => hvia j hj1 (by omega))
      have h2 := hadj m (by omega) (hvia (m+1) (by omega) (le_refl _))
      omega
    · have hkm' : k = m := by omega
      subst hkm'
      exact hadj k (by omega) (hvia (k+1) (by omega) (le_refl _))

/-- C3: one iteration of the `loadDanmaku` loop with a candidate `i`.
(a) If the candidate is already in the registry the loop advances the
cursor past it and retries (the iteration contributes a skip entry and the
rest of the run continues from the advanced engine).  (b) If the candidate
is not active and its time differs from the current time by more than
0.1 s the loop stops for this tick with the engine — in particular the
cursor — exactly as it was at the start of the iteration.  (c) In every
other case the iteration continues with the cursor advanced past the
candidate before activation is attempted.  (d) With a candidate present
the no-candidate exit is impossible, so the tolerance failure is the only
loop exit (and by (b) it leaves the cursor unadvanced). -/
theorem claim_C3 (rightOf : DKey → ℚ) (videoW now : ℚ) (fuel : ℕ)
    (e : Engine) (i : ℕ) (hc : candidate e now = some i) :
    ((e.gen, i) ∈ e.active →
      loadLoop rightOf videoW now (fuel + 1) e =
        ((loadLoop rightOf videoW now fuel { e with nextIdx := some (i + 1) }).1,
         (loadLoop rightOf videoW now fuel { e with nextIdx := some (i + 1) }).2.1,
         ⟨i, fromCursor e, .skipActive⟩ ::
           (loadLoop rightOf videoW now fuel { e with nextIdx := some (i + 1) }).2.2)) ∧
    ((e.gen, i) ∉ e.active →
      1/10 < |((e.data.getD []).getD i default).time - now| →
      loadLoop rightOf videoW now (fuel + 1) e = (e, .tolerance, [])) ∧
    ((e.gen, i) ∉ e.active →
      ¬ 1/10 < |((e.data.getD []).getD i default).time - now| →
      ∃ e' k, loadStep rightOf videoW now e = .cont e' ⟨i, fromCursor e, k⟩ ∧
        e'.nextIdx = some (i + 1) ∧ k ≠ StepKind.skipActive) ∧
    loadStep rightOf videoW now e ≠ StepRes.exitNoCand := by
  refine ⟨?_, ?_, ?_, ?_⟩
  · intro hmem
    have hstep : loadStep rightOf videoW now e =
        .cont { e with nextIdx := some (i + 1) } ⟨i, fromCursor e, .skipActive⟩ := by
      unfold loadStep
      simp only [hc]
      rw [if_pos hmem]
    simp only [loadLoop, hstep]
  · intro hmem htol
    have hstep : loadStep rightOf videoW now e = .exitTol := by
      unfold loadStep
      simp only [hc]
      rw [if_neg hmem, if_pos htol]
    simp only [loadLoop, hstep]
  · intro hmem htol
    unfold loadStep
    simp only [hc]
    rw [if_neg hmem, if_neg htol]
    cases hpick : pickLine { e with nextIdx := some (i + 1) }.lanes
        { e with nextIdx := some (i + 1) }.lineMargin
        ((e.data.getD []).getD i default).mode rightOf videoW with
    | none =>
      exact ⟨{ e with nextIdx := some (i + 1) }, .dropped, rfl, rfl, by simp⟩
    | some li =>
      refine ⟨activate { e with nextIdx := some (i + 1) } i
        ((e.data.getD []).getD i default) li, .activated, rfl, rfl, by simp⟩
  · intro hbad
    unfold loadStep at hbad
    simp only [hc] at hbad
    by_cases hmem : (e.gen, i) ∈ e.active
    · rw [if_pos hmem] at hbad
      exact StepRes.noConfusion hbad
    · rw [if_neg hmem] at hbad
      by_cases htol : 1/10 < |((e.data.getD []).getD i default).time - now|
      · rw [if_pos htol] at hbad
        exact StepRes.noConfusion hbad
      · rw [if_neg htol] at hbad
        cases hpick : pickLine { e with nextIdx := some (i + 1) }.lanes
            { e with nextIdx := some (i + 1) }.lineMargin
            ((e.data.getD []).getD i default).mode rightOf videoW with
        | none => rw [hpick] at hbad; exact StepRes.noConfusion hbad
        | some li => rw [hpick] at hbad; exact StepRes.noConfusion hbad

theorem claim_C3_witness :
    ∃ e : Engine, candidate e 1 = some 0 ∧ (e.gen, 0) ∈ e.active ∧
      loadLoop (fun _ => 0) 100 1 1 e =
        ((loadLoop (fun _ => 0) 100 1 0 { e with nextIdx := some 1 }).1,
         (loadLoop (fun _ => 0) 100 1 0 { e with nextIdx := some 1 }).2.1,
         ⟨0, fromCursor e, .skipActive⟩ ::
           (loadLoop (fun _ => 0) 100 1 0 { e with nextIdx := some 1 }).2.2) := by
  refine ⟨run exOpsPlaying, ?_, ?_, ?_⟩
  · decide
  · decide
  · exact (claim_C3 (fun _ => 0) 100 1 0 (run exOpsPlaying) 0 (by decide)).1 (by decide)

/-- C4: when a due, not-yet-active candidate fails activation because
`pickLine` returns no lane, the iteration still continues (no exit, no
error), the cursor has been advanced past the candidate, and the registry
and every lane are left untouched; moreover, along any search-free stretch
of a run's trace the processed indices strictly increase, so the dropped
index is not revisited in the same forward traversal. -/
theorem claim_C4 (rightOf : DKey → ℚ) (videoW now : ℚ) (e : Engine) (i : ℕ)
    (hc : candidate e now = some i)
    (hact : (e.gen, i) ∉ e.active)
    (htol : ¬ 1/10 < |((e.data.getD []).getD i default).time - now|)
    (hpick : pickLine e.lanes e.lineMargin ((e.data.getD []).getD i default).mode
      rightOf videoW = none) :
    loadStep rightOf videoW now e =
      .cont { e with nextIdx := some (i + 1) } ⟨i, fromCursor e, .dropped⟩ ∧
    (∀ fuel e0 m k,
       m < (loadLoop rightOf videoW now fuel e0).2.2.length → k < m →
       (∀ j, k < j → j ≤ m →
          (((loadLoop rightOf videoW now fuel e0).2.2.getD j default).viaCursor = true)) →
       ((loadLoop rightOf videoW now fuel e0).2.2.getD k default).idx <
       ((loadLoop rightOf videoW now fuel e0).2.2.getD m default).idx) := by
  constructor
  · unfold loadStep
    simp only [hc]
    rw [if_neg hact, if_neg htol]
    have : pickLine { e with nextIdx := some (i + 1) }.lanes
        { e with nextIdx := some (i + 1) }.lineMargin
        ((e.data.getD []).getD i default).mode rightOf videoW = none := hpick
    rw [this]
  · intro fuel e0 m k hm hk hvia
    exact trace_mono_segment _ ((loadLoop_trace_mono rightOf videoW now fuel e0).2)
      m k hm hk hvia

theorem claim_C4_witness :
    ∃ e : Engine, candidate e 1 = some 1 ∧ (e.gen, 1) ∉ e.active ∧
      ¬ 1/10 < |((e.data.getD []).getD 1 default).time - 1| ∧
      pickLine e.lanes e.lineMargin ((e.data.getD []).getD 1 default).mode
        (fun _ => 60) 100 = none ∧
      loadStep (fun _ => 60) 100 1 e =
        .cont { e with nextIdx := some 2 } ⟨1, fromCursor e, .dropped⟩ := by
  refine ⟨run [Op.attach 48, Op.loadOp (.ok [exD 1, exD 1]) false, Op.showOp false,
      Op.tick (fun _ => 60) (fun _ => some PlayState.running) 100 1 1], ?_, ?_, ?_, ?_, ?_⟩
  · decide
  · decide
  · decide
  · decide
  · exact (claim_C4 (fun _ => 60) 100 1 _ 1 (by decide) (by decide) (by decide)
      (by decide)).1

/-! ### Per-operation field bookkeeping

Small lemmas recording which engine fields each lifecycle operation can
touch; used by the lifecycle (C9) and registry (C1) invariants. -/

theorem clearIntervalF_parts (e : Engine) :
    (clearIntervalF e).isVisible = e.isVisible ∧
    (clearIntervalF e).attached = e.attached ∧
    (clearIntervalF e).lanes = e.lanes ∧
    (clearIntervalF e).active = e.active ∧
    (clearIntervalF e).data = e.data ∧
    (clearIntervalF e).gen = e.gen ∧
    (clearIntervalF e).state = e.state := by
  unfold clearIntervalF
  split_ifs <;> exact ⟨rfl, rfl, rfl, rfl, rfl, rfl, rfl⟩

theorem startIntervalF_parts (e : Engine) :
    (startIntervalF e).isVisible = e.isVisible ∧
    (startIntervalF e).attached = e.attached ∧
    (startIntervalF e).lanes = e.lanes ∧
    (startIntervalF e).active = e.active ∧
    (startIntervalF e).data = e.data ∧
    (startIntervalF e).gen = e.gen ∧
    (startIntervalF e).state = e.state := by
  unfold startIntervalF
  split_ifs <;> exact ⟨rfl, rfl, rfl, rfl, rfl, rfl, rfl⟩

theorem pause_parts (e : Engine) :
    (pause e).isVisible = e.isVisible ∧
    (pause e).attached = e.attached ∧
    (pause e).lanes = e.lanes ∧
    (pause e).active = e.active ∧
    (pause e).data = e.data ∧
    (pause e).gen = e.gen ∧
    ((pause e).state = e.state ∨
      ((pause e).state = CBState.Paused ∧ e.state = CBState.Playing)) := by
  unfold pause
  split_ifs with h
  · exact ⟨rfl, rfl, rfl, rfl, rfl, rfl, Or.inl rfl⟩
  · obtain ⟨h1, h2, h3, h4, h5, h6, _⟩ := clearIntervalF_parts e
    exact ⟨h1, h2, h3, h4, h5, h6, Or.inr ⟨rfl, not_not.mp h⟩⟩

theorem resume_parts (e : Engine) :
    (resume e).isVisible = e.isVisible ∧
    (resume e).attached = e.attached ∧
    (resume e).lanes = e.lanes ∧
    (resume e).active = e.active ∧
    (resume e).data = e.data ∧
    (resume e).gen = e.gen ∧
    ((resume e).state = e.state ∨
      ((resume e).state = CBState.Playing ∧ e.state = CBState.Paused)) := by
  unfold resume
  split_ifs with h
  · exact ⟨rfl, rfl, rfl, rfl, rfl, rfl, Or.inl rfl⟩
  · obtain ⟨h1, h2, h3, h4, h5, h6, _⟩ := startIntervalF_parts e
    exact ⟨h1, h2, h3, h4, h5, h6, Or.inr ⟨rfl, not_not.mp h⟩⟩

theorem hide_parts (e : Engine) :
    (hide e).attached = e.attached ∧
    (hide e).lanes = e.lanes ∧
    (hide e).active = e.active ∧
    (hide e).data = e.data ∧
    (hide e).gen = e.gen ∧
    ((hide e = e ∧ e.state = CBState.Empty) ∨
      ((hide e).state = CBState.Hide ∧ (hide e).isVisible = false ∧
        e.state ≠ CBState.Empty)) := by
  unfold hide
  split_ifs with h
  · exact ⟨rfl, rfl, rfl, rfl, rfl, Or.inl ⟨rfl, h⟩⟩
  · obtain ⟨_, h2, h3, h4, h5, h6, _⟩ :=
      clearIntervalF_parts { e with isVisible := false }
    refine ⟨h2, h3, h4, h5, h6, Or.inr ⟨rfl, ?_, h⟩⟩
    exact (clearIntervalF_parts { e with isVisible := false }).1

theorem show'_parts (vp : Bool) (e : Engine) :
    (show' vp e).attached = e.attached ∧
    (show' vp e).lanes = e.lanes ∧
    (show' vp e).active = e.active ∧
    (show' vp e).data = e.data ∧
    (show' vp e).gen = e.gen ∧
    ((show' vp e = e ∧ e.state ≠ CBState.Hide) ∨
      (((show' vp e).state = CBState.Playing ∨ (show' vp e).state = CBState.Paused) ∧
        (show' vp e).isVisible = true ∧ e.state = CBState.Hide)) := by
  unfold show' pause startIntervalF clearIntervalF
  split_ifs with h <;>
    first
      | exact ⟨rfl, rfl, rfl, rfl, rfl, Or.inl ⟨rfl, h⟩⟩
      | exact ⟨rfl, rfl, rfl, rfl, rfl,
          Or.inr ⟨Or.inl rfl, rfl, not_not.mp h⟩⟩
      | exact ⟨rfl, rfl, rfl, rfl, rfl,
          Or.inr ⟨Or.inr rfl, rfl, not_not.mp h⟩⟩
      | simp_all

theorem detach_parts (e : Engine) :
    (detach e).isVisible = e.isVisible ∧
    (detach e).data = e.data ∧
    (detach e).gen = e.gen ∧
    ((e.attached = false ∧ detach e = clearIntervalF e) ∨
      ((detach e).state = CBState.Empty ∧ (detach e).attached = false ∧
        (detach e).lanes = [] ∧ (detach e).active = [])) := by
  unfold detach clearIntervalF
  by_cases hi : e.intervalOn <;> by_cases ha : e.attached <;> simp [hi, ha]

theorem updateDanmakuLines_parts (videoH : ℚ) (e : Engine) :
    (updateDanmakuLines videoH e).isVisible = e.isVisible ∧
    (updateDanmakuLines videoH e).attached = e.attached ∧
    (updateDanmakuLines videoH e).active = e.active ∧
    (updateDanmakuLines videoH e).data = e.data ∧
    (updateDanmakuLines videoH e).gen = e.gen ∧
    (updateDanmakuLines videoH e).state = e.state ∧
    (updateDanmakuLines videoH e).nextIdx = e.nextIdx := by
  unfold updateDanmakuLines
  dsimp only
  split_ifs <;> exact ⟨rfl, rfl, rfl, rfl, rfl, rfl, rfl⟩

theorem attachToVideo_parts (videoH : ℚ) (e : Engine) :
    (attachToVideo videoH e).isVisible = e.isVisible ∧
    (attachToVideo videoH e).attached = true ∧
    (attachToVideo videoH e).state = CBState.Hide ∧
    (attachToVideo videoH e).data = e.data ∧
    (attachToVideo videoH e).gen = e.gen := by
  unfold attachToVideo
  split_ifs with h
  · obtain ⟨hv, hd, hg, _⟩ := detach_parts e
    obtain ⟨uv, ua, _, ud, ug, _, _⟩ := updateDanmakuLines_parts videoH
      { detach e with attached := true }
    refine ⟨?_, ?_, rfl, ?_, ?_⟩
    · show (updateDanmakuLines videoH { detach e with attached := true }).isVisible
        = e.isVisible
      rw [uv]
      exact hv
    · show (updateDanmakuLines videoH { detach e with attached := true }).attached
        = true
      rw [ua]
    · show (updateDanmakuLines videoH { detach e with attached := true }).data
        = e.data
      rw [ud]
      exact hd
    · show (updateDanmakuLines videoH { detach e with attached := true }).gen
        = e.gen
      rw [ug]
      exact hg
  · obtain ⟨uv, ua, _, ud, ug, _, _⟩ := updateDanmakuLines_parts videoH
      { e with attached := true }
    refine ⟨?_, ?_, rfl, ?_, ?_⟩
    · show (updateDanmakuLines videoH { e with attached := true }).isVisible
        = e.isVisible
      rw [uv]
    · show (updateDanmakuLines videoH { e with attached := true }).attached = true
      rw [ua]
    · show (updateDanmakuLines videoH { e with attached := true }).data = e.data
      rw [ud]
    · show (updateDanmakuLines videoH { e with attached := true }).gen = e.gen
      rw [ug]

/-- The per-tick loop touches only `nextIdx`, `active` and `lanes`. -/
theorem loadStep_cont_fields (rightOf : DKey → ℚ) (videoW now : ℚ)
    (e e' : Engine) (tr : TraceEntry)
    (h : loadStep rightOf videoW now e = .cont e' tr) :
    e'.data = e.data ∧ e'.gen = e.gen ∧ e'.state = e.state ∧
    e'.isVisible = e.isVisible ∧ e'.intervalOn = e.intervalOn ∧
    e'.attached = e.attached ∧ e'.fontSize = e.fontSize ∧
    e'.lineMargin = e.lineMargin := by
  unfold loadStep at h
  cases hcand : candidate e now with
  | none =>
    rw [hcand] at h
    exact StepRes.noConfusion h
  | some idx =>
    simp only [hcand] at h
    by_cases hmem : (e.gen, idx) ∈ e.active
    · rw [if_pos hmem] at h
      injection h with he htr
      subst he
      exact ⟨rfl, rfl, rfl, rfl, rfl, rfl, rfl, rfl⟩
    · rw [if_neg hmem] at h
      by_cases htol : 1/10 < |((e.data.getD []).getD idx default).time - now|
      · rw [if_pos htol] at h
        exact StepRes.noConfusion h
      · rw [if_neg htol] at h
        cases hpick : pickLine { e with nextIdx := some (idx + 1) }.lanes
            { e with nextIdx := some (idx + 1) }.lineMargin
            ((e.data.getD []).getD idx default).mode rightOf videoW with
        | none =>
          rw [hpick] at h
          injection h with he htr
          subst he
          exact ⟨rfl, rfl, rfl, rfl, rfl, rfl, rfl, rfl⟩
        | some li =>
          rw [hpick] at h
          injection h with he htr
          subst he
          exact ⟨rfl, rfl, rfl, rfl, rfl, rfl, rfl, rfl⟩

theorem loadLoop_fields (rightOf : DKey → ℚ) (videoW now : ℚ) :
    ∀ (fuel : ℕ) (e : Engine),
      ((loadLoop rightOf videoW now fuel e).1).data = e.data ∧
      ((loadLoop rightOf videoW now fuel e).1).gen = e.gen ∧
      ((loadLoop rightOf videoW now fuel e).1).state = e.state ∧
      ((loadLoop rightOf videoW now fuel e).1).isVisible = e.isVisible ∧
      ((loadLoop rightOf videoW now fuel e).1).intervalOn = e.intervalOn ∧
      ((loadLoop rightOf videoW now fuel e).1).attached = e.attached ∧
      ((loadLoop rightOf videoW now fuel e).1).fontSize = e.fontSize ∧
      ((loadLoop rightOf videoW now fuel e).1).lineMargin = e.lineMargin := by
  intro fuel
  induction fuel with
  | zero =>
    intro e
    exact ⟨rfl, rfl, rfl, rfl, rfl, rfl, rfl, rfl⟩
  | succ fuel ih =>
    intro e
    cases hstep : loadStep rightOf videoW now e with
    | exitNoCand =>
      have hfin : (loadLoop rightOf videoW now (fuel + 1) e).1 = e := by
        simp only [loadLoop, hstep]
      rw [hfin]
      exact ⟨rfl, rfl, rfl, rfl, rfl, rfl, rfl, rfl⟩
    | exitTol =>
      have hfin : (loadLoop rightOf videoW now (fuel + 1) e).1 = e := by
        simp only [loadLoop, hstep]
      rw [hfin]
      exact ⟨rfl, rfl, rfl, rfl, rfl, rfl, rfl, rfl⟩
    | cont e' tr =>
      have hfin : (loadLoop rightOf videoW now (fuel + 1) e).1 =
          (loadLoop rightOf videoW now fuel e').1 := by
        simp only [loadLoop, hstep]
      obtain ⟨s1, s2, s3, s4, s5, s6, s7, s8⟩ :=
        loadStep_cont_fields rightOf videoW now e e' tr hstep
      obtain ⟨i1, i2, i3, i4, i5, i6, i7, i8⟩ := ih e'
      rw [hfin]
      exact ⟨by rw [i1, s1], by rw [i2, s2], by rw [i3, s3], by rw [i4, s4],
        by rw [i5, s5], by rw [i6, s6], by rw [i7, s7], by rw [i8, s8]⟩

theorem loadDanmaku_fields (rightOf : DKey → ℚ) (videoW now : ℚ) (fuel : ℕ)
    (e : Engine) :
    (loadDanmaku rightOf videoW now fuel e).data = e.data ∧
    (loadDanmaku rightOf videoW now fuel e).gen = e.gen ∧
    (loadDanmaku rightOf videoW now fuel e).state = e.state ∧
    (loadDanmaku rightOf videoW now fuel e).isVisible = e.isVisible ∧
    (loadDanmaku rightOf videoW now fuel e).intervalOn = e.intervalOn ∧
    (loadDanmaku rightOf videoW now fuel e).attached = e.attached ∧
    (loadDanmaku rightOf videoW now fuel e).fontSize = e.fontSize ∧
    (loadDanmaku rightOf videoW now fuel e).lineMargin = e.lineMargin := by
  unfold loadDanmaku
  split_ifs with h
  · exact ⟨rfl, rfl, rfl, rfl, rfl, rfl, rfl, rfl⟩
  · exact loadLoop_fields rightOf videoW now fuel e

theorem cleanupDanmaku_fields (anim : DKey → Option PlayState) (videoW now : ℚ)
    (e : Engine) :
    (cleanupDanmaku anim videoW now e).data = e.data ∧
    (cleanupDanmaku anim videoW now e).gen = e.gen ∧
    (cleanupDanmaku anim videoW now e).state = e.state ∧
    (cleanupDanmaku anim videoW now e).isVisible = e.isVisible ∧
    (cleanupDanmaku anim videoW now e).intervalOn = e.intervalOn ∧
    (cleanupDanmaku anim videoW now e).attached = e.attached ∧
    (cleanupDanmaku anim videoW now e).fontSize = e.fontSize ∧
    (cleanupDanmaku anim videoW now e).lineMargin = e.lineMargin ∧
    (cleanupDanmaku anim videoW now e).nextIdx = e.nextIdx := by
  unfold cleanupDanmaku
  split_ifs with h
  · exact ⟨rfl, rfl, rfl, rfl, rfl, rfl, rfl, rfl, rfl⟩
  · cases hcl : cleanLanes anim (fixedExpired e.attached videoW now) e.lanes with
    | mk ls rm =>
      exact ⟨rfl, rfl, rfl, rfl, rfl, rfl, rfl, rfl, rfl⟩

/-! ### Lifecycle invariants and C9 -/

theorem wfLifecycle_congr (e e' : Engine) (hs : e'.state = e.state)
    (hv : e'.isVisible = e.isVisible) (ha : e'.attached = e.attached)
    (h : wfLifecycle e) : wfLifecycle e' := by
  refine ⟨fun hp => ?_, fun hp => ?_⟩
  · rw [hs] at hp
    rw [hv]
    exact h.1 hp
  · rw [hs] at hp
    rw [ha]
    exact h.2 hp

theorem wfLifecycle_hide (e : Engine) (h : wfLifecycle e) :
    wfLifecycle (hide e) := by
  obtain ⟨ha, _, _, _, _, hcase⟩ := hide_parts e
  rcases hcase with ⟨heq, _⟩ | ⟨hs, hv, hne⟩
  · rw [heq]
    exact h
  · refine ⟨fun hp => ?_, fun _ => ?_⟩
    · rw [hs] at hp
      rcases hp with hp | hp <;> exact CBState.noConfusion hp
    · rw [ha]
      exact h.2 hne

theorem wfLifecycle_show (vp : Bool) (e : Engine) (h : wfLifecycle e) :
    wfLifecycle (show' vp e) := by
  obtain ⟨ha, _, _, _, _, hcase⟩ := show'_parts vp e
  rcases hcase with ⟨heq, _⟩ | ⟨_, hv, hprev⟩
  · rw [heq]
    exact h
  · refine ⟨fun _ => hv, fun _ => ?_⟩
    · rw [ha]
      exact h.2 (by rw [hprev]; exact fun hh => CBState.noConfusion hh)

theorem wfLifecycle_pause (e : Engine) (h : wfLifecycle e) :
    wfLifecycle (pause e) := by
  obtain ⟨hv, ha, _, _, _, _, hcase⟩ := pause_parts e
  rcases hcase with hs | ⟨hs, hprev⟩
  · exact wfLifecycle_congr e (pause e) hs hv ha h
  · refine ⟨fun _ => ?_, fun _ => ?_⟩
    · rw [hv]
      exact h.1 (Or.inl hprev)
    · rw [ha]
      exact h.2 (by rw [hprev]; exact fun hh => CBState.noConfusion hh)

theorem wfLifecycle_resume (e : Engine) (h : wfLifecycle e) :
    wfLifecycle (resume e) := by
  obtain ⟨hv, ha, _, _, _, _, hcase⟩ := resume_parts e
  rcases hcase with hs | ⟨hs, hprev⟩
  · exact wfLifecycle_congr e (resume e) hs hv ha h
  · refine ⟨fun _ => ?_, fun _ => ?_⟩
    · rw [hv]
      exact h.1 (Or.inr hprev)
    · rw [ha]
      exact h.2 (by rw [hprev]; exact fun hh => CBState.noConfusion hh)

theorem wfLifecycle_detach (e : Engine) (h : wfLifecycle e) :
    wfLifecycle (detach e) := by
  obtain ⟨hv, _, _, hcase⟩ := detach_parts e
  rcases hcase with ⟨hna, heq⟩ | ⟨hs, _, _, _⟩
  · rw [heq]
    obtain ⟨cv, ca, _, _, _, _, cs⟩ := clearIntervalF_parts e
    refine ⟨fun hp => ?_, fun hp => ?_⟩
    · rw [cs] at hp
      rw [cv]
      exact h.1 hp
    · rw [cs] at hp
      exfalso
      rw [h.2 hp] at hna
      exact Bool.noConfusion hna
  · refine ⟨fun hp => ?_, fun hp => ?_⟩
    · rw [hs] at hp
      rcases hp with hp | hp <;> exact CBState.noConfusion hp
    · rw [hs] at hp
      exact absurd rfl hp

theorem wfLifecycle_attach (videoH : ℚ) (e : Engine) (_h : wfLifecycle e) :
    wfLifecycle (attachToVideo videoH e) := by
  obtain ⟨_, ha, hs, _, _⟩ := attachToVideo_parts videoH e
  refine ⟨fun hp => ?_, fun _ => ha⟩
  rw [hs] at hp
  rcases hp with hp | hp <;> exact CBState.noConfusion hp

theorem wfLifecycle_load (fetch : Except String (List Danmaku)) (vp : Bool)
    (e : Engine) (h : wfLifecycle e) : wfLifecycle (load fetch vp e).1 := by
  unfold load
  by_cases hinert : e.state = CBState.Empty ∨ e.state = CBState.Hide
  · simp only [hinert, if_true]
    cases fetch with
    | error s => exact h
    | ok input =>
      simp only [hinert, if_true]
      exact wfLifecycle_congr e _ rfl rfl rfl h
  · simp only [hinert, if_false]
    have hne : e.state ≠ CBState.Empty := fun hh => hinert (Or.inl hh)
    have hwh : wfLifecycle (hide e) := wfLifecycle_hide e h
    cases fetch with
    | error s => exact hwh
    | ok input =>
      simp only [hinert, if_false]
      by_cases hplay : e.state = CBState.Playing
      · simp only [hplay, if_true]
        set e2 : Engine := { hide e with
          data := some (sortDanmaku input), gen := (hide e).gen + 1 } with he2
        have hwf2 : wfLifecycle e2 :=
          wfLifecycle_congr (hide e) e2 rfl rfl rfl hwh
        have he2s : e2.state = CBState.Hide := hide_state e hne
        obtain ⟨sa, _, _, _, _, scase⟩ := show'_parts vp e2
        rcases scase with ⟨_, hne2⟩ | ⟨_, sv, _⟩
        · exact absurd he2s hne2
        · refine ⟨fun _ => sv, fun _ => ?_⟩
          rw [sa]
          show e2.attached = true
          have : e2.attached = e.attached := (hide_parts e).1
          rw [this]
          exact h.2 hne
      · simp only [hplay, if_false]
        set e2 : Engine := { hide e with
          data := some (sortDanmaku input), gen := (hide e).gen + 1 } with he2
        have he2s : e2.state = CBState.Hide := hide_state e hne
        obtain ⟨sa, _, _, _, _, scase⟩ := show'_parts vp e2
        obtain ⟨pv, pa, _, _, _, _, _⟩ := pause_parts (show' vp e2)
        rcases scase with ⟨_, hne2⟩ | ⟨_, sv, _⟩
        · exact absurd he2s hne2
        · refine ⟨fun _ => ?_, fun _ => ?_⟩
          · rw [pv]
            exact sv
          · rw [pa, sa]
            show e2.attached = true
            have : e2.attached = e.attached := (hide_parts e).1
            rw [this]
            exact h.2 hne

theorem wfLifecycle_applyOp (e : Engine) (op : Op) (h : wfLifecycle e) :
    wfLifecycle (applyOp e op) := by
  cases op with
  | attach videoH => exact wfLifecycle_attach videoH e h
  | detachOp => exact wfLifecycle_detach e h
  | loadOp fetch vp => exact wfLifecycle_load fetch vp e h
  | showOp vp => exact wfLifecycle_show vp e h
  | hideOp => exact wfLifecycle_hide e h
  | pauseOp => exact wfLifecycle_pause e h
  | resumeOp => exact wfLifecycle_resume e h
  | seekOp => exact wfLifecycle_congr e _ rfl rfl rfl h
  | setFontSizeOp s => exact wfLifecycle_congr e _ rfl rfl rfl h
  | setLineMarginOp m =>
    show wfLifecycle (setLineMargin m e).1
    unfold setLineMargin
    split_ifs <;> exact wfLifecycle_congr e _ rfl rfl rfl h
  | tick rightOf anim w now fuel =>
    show wfLifecycle (if e.intervalOn ∧ e.attached then
      cleanupDanmaku anim w now (loadDanmaku rightOf w now fuel e) else e)
    split_ifs with hg
    · obtain ⟨_, _, l3, l4, _, l6, _, _⟩ := loadDanmaku_fields rightOf w now fuel e
      obtain ⟨_, _, c3, c4, _, c6, _, _, _⟩ :=
        cleanupDanmaku_fields anim w now (loadDanmaku rightOf w now fuel e)
      exact wfLifecycle_congr e _ (by rw [c3, l3]) (by rw [c4, l4])
        (by rw [c6, l6]) h
    · exact h
  | resize videoH =>
    show wfLifecycle (if e.attached then updateDanmakuLines videoH e else e)
    split_ifs with hg
    · obtain ⟨u1, u2, _, _, _, u6, _⟩ := updateDanmakuLines_parts videoH e
      exact wfLifecycle_congr e _ u6 u1 u2 h
    · exact h

theorem wfLifecycle_foldl (ops : List Op) :
    ∀ e : Engine, wfLifecycle e → wfLifecycle (ops.foldl applyOp e) := by
  induction ops with
  | nil => exact fun e h => h
  | cons op ops ih =>
    intro e h
    exact ih (applyOp e op) (wfLifecycle_applyOp e op h)

theorem wfLifecycle_run (ops : List Op) : wfLifecycle (run ops) :=
  wfLifecycle_foldl ops initEngine
    ⟨fun hp => by rcases hp with hp | hp <;> exact CBState.noConfusion hp,
     fun hp => absurd rfl hp⟩

/-- C9: `detach()` does not reset the visibility flag — from any reachable
engine in Playing or Paused, after `detach` (state Empty, video reference
cleared, lanes and registry emptied) `isVisible()` still returns true; a
subsequent `attach` leaves the flag untouched, and `hide` clears it only
when run from a non-Empty state (from Empty it is a no-op). -/
theorem claim_C9 (ops : List Op)
    (h : (run ops).state = CBState.Playing ∨ (run ops).state = CBState.Paused) :
    (detach (run ops)).isVisible = true ∧
    (detach (run ops)).state = CBState.Empty ∧
    (detach (run ops)).attached = false ∧
    (detach (run ops)).lanes = [] ∧
    (detach (run ops)).active = [] ∧
    (∀ videoH : ℚ, (attachToVideo videoH (detach (run ops))).isVisible =
      (detach (run ops)).isVisible) ∧
    (∀ e' : Engine, e'.state = CBState.Empty → (hide e').isVisible = e'.isVisible) ∧
    (∀ e' : Engine, e'.state ≠ CBState.Empty → (hide e').isVisible = false) := by
  have hwf := wfLifecycle_run ops
  have hvis : (run ops).isVisible = true := hwf.1 h
  have hatt : (run ops).attached = true := by
    refine hwf.2 (fun hh => ?_)
    rw [hh] at h
    rcases h with h | h <;> exact CBState.noConfusion h
  obtain ⟨dv, _, _, hcase⟩ := detach_parts (run ops)
  rcases hcase with ⟨hna, _⟩ | ⟨hs, ha, hl, hac⟩
  · rw [hatt] at hna
    exact Bool.noConfusion hna
  · refine ⟨by rw [dv]; exact hvis, hs, ha, hl, hac, ?_, ?_, ?_⟩
    · intro videoH
      exact (attachToVideo_parts videoH (detach (run ops))).1
    · intro e' he'
      unfold hide
      rw [if_pos he']
    · intro e' he'
      obtain ⟨_, _, _, _, _, hcase'⟩ := hide_parts e'
      rcases hcase' with ⟨_, habs⟩ | ⟨_, hv, _⟩
      · exact absurd habs he'
      · exact hv

theorem claim_C9_witness :
    (detach (run exOpsPlaying)).isVisible = true ∧
    (detach (run exOpsPlaying)).state = CBState.Empty ∧
    (detach (run exOpsPlaying)).lanes = [] ∧
    (detach (run exOpsPlaying)).active = [] := by
  have h := claim_C9 exOpsPlaying (by left; decide)
  exact ⟨h.1, h.2.1, h.2.2.2.1, h.2.2.2.2.1⟩

/-! ### Registry bookkeeping (C1) -/

theorem mem_setAdd (s : List DKey) (k x : DKey) :
    x ∈ setAdd s k ↔ x ∈ s ∨ x = k := by
  unfold setAdd
  split_ifs with h
  · constructor
    · exact Or.inl
    · rintro (hx | rfl)
      · exact hx
      · exact h
  · simp

theorem setAdd_nodup (s : List DKey) (k : DKey) (h : s.Nodup) :
    (setAdd s k).Nodup := by
  unfold setAdd
  split_ifs with hk
  · exact h
  · refine List.Nodup.append h (List.nodup_singleton k) ?_
    intro a ha hb
    rw [List.mem_singleton] at hb
    subst hb
    exact hk ha

theorem eraseAll_nodup (ks : List DKey) :
    ∀ s : List DKey, s.Nodup → (eraseAll s ks).Nodup := by
  induction ks with
  | nil => exact fun s h => h
  | cons k ks ih =>
    intro s h
    exact ih (s.erase k) (h.erase k)

theorem mem_eraseAll_of_nodup (ks : List DKey) :
    ∀ s : List DKey, s.Nodup → ∀ x, x ∈ eraseAll s ks ↔ x ∈ s ∧ x ∉ ks := by
  induction ks with
  | nil =>
    intro s _ x
    simp [eraseAll]
  | cons k ks ih =>
    intro s h x
    show x ∈ eraseAll (s.erase k) ks ↔ _
    rw [ih (s.erase k) (h.erase k) x, h.mem_erase_iff]
    constructor
    · rintro ⟨⟨hne, hx⟩, hnk⟩
      refine ⟨hx, ?_⟩
      intro hmem
      rcases List.mem_cons.mp hmem with rfl | hmem
      · exact hne rfl
      · exact hnk hmem
    · rintro ⟨hx, hnk⟩
      exact ⟨⟨fun hh => hnk (hh ▸ List.mem_cons_self k ks), hx⟩,
        fun hh => hnk (List.mem_cons_of_mem k hh)⟩

theorem laneBag_append (l1 l2 : List Lane) :
    laneBag (l1 ++ l2) = laneBag l1 ++ laneBag l2 := by
  induction l1 with
  | nil => rfl
  | cons l ls ih =>
    show l.keys ++ laneBag (ls ++ l2) = (l.keys ++ laneBag ls) ++ laneBag l2
    rw [ih, List.append_assoc]

theorem laneBag_replicate_empty (n : ℕ) :
    laneBag (List.replicate n emptyLane) = [] := by
  induction n with
  | zero => rfl
  | succ n ih =>
    rw [List.replicate_succ]
    show emptyLane.keys ++ laneBag (List.replicate n emptyLane) = []
    rw [ih]
    rfl

theorem laneBag_take_drop (ls : List Lane) (n : ℕ) :
    laneBag ls = laneBag (ls.take n) ++ laneBag (ls.drop n) := by
  conv_lhs => rw [← List.take_append_drop n ls]
  exact laneBag_append _ _

theorem laneBag_eq_nil_iff (ls : List Lane) :
    laneBag ls = [] ↔ ∀ l ∈ ls, l.keys = [] := by
  induction ls with
  | nil => simp [laneBag]
  | cons l ls ih =>
    show l.keys ++ laneBag ls = [] ↔ _
    rw [List.append_eq_nil]
    simp [ih]

theorem cleanQueue_append (anim : DKey → Option PlayState) :
    ∀ q : List VisItem, (cleanQueue anim q).1 ++ (cleanQueue anim q).2 = q := by
  intro q
  induction q with
  | nil => rfl
  | cons it rest ih =>
    by_cases h : animDone anim it.key = true
    · cases hc : cleanQueue anim rest with
      | mk rm keep =>
        rw [hc] at ih
        simp only [cleanQueue, h, if_true, hc]
        show (it :: rm) ++ keep = it :: rest
        rw [List.cons_append, ih]
    · simp only [cleanQueue, h, if_false]
      rfl

theorem cleanLane_keys_perm (anim : DKey → Option PlayState)
    (expired : VisItem → Bool) (l : Lane) :
    l.keys.Perm ((cleanLane anim expired l).2 ++ ((cleanLane anim expired l).1).keys) := by
  unfold cleanLane
  cases hc : cleanQueue anim l.queue with
  | mk rm keep =>
    have hq : l.queue = rm ++ keep := by
      have := cleanQueue_append anim l.queue
      rw [hc] at this
      exact this.symm
    rw [List.perm_iff_count]
    intro x
    unfold Lane.keys
    cases hfx : l.fixedItem with
    | none =>
      dsimp only
      rw [hq]
      simp [List.count_append]
    | some it =>
      dsimp only
      by_cases hexp : expired it = true
      · rw [if_pos hexp]
        dsimp only
        rw [hq]
        simp only [List.map_append, List.count_append, List.count_cons,
          List.count_nil]
        omega
      · rw [if_neg hexp]
        dsimp only
        rw [hq]
        simp only [List.map_append, List.count_append, List.count_cons,
          List.count_nil]
        omega

theorem cleanLanes_perm (anim : DKey → Option PlayState)
    (expired : VisItem → Bool) :
    ∀ ls : List Lane, (laneBag ls).Perm
      ((cleanLanes anim expired ls).2 ++ laneBag (cleanLanes anim expired ls).1) := by
  intro ls
  induction ls with
  | nil => rfl
  | cons l ls ih =>
    unfold cleanLanes
    cases hl : cleanLane anim expired l with
    | mk l' r =>
      cases hls : cleanLanes anim expired ls with
      | mk ls' rs =>
        have h1 : l.keys.Perm (r ++ l'.keys) := by
          have := cleanLane_keys_perm anim expired l
          rw [hl] at this
          exact this
        have h2 : (laneBag ls).Perm (rs ++ laneBag ls') := by
          have := ih
          rw [hls] at this
          exact this
        show (l.keys ++ laneBag ls).Perm ((r ++ rs) ++ laneBag (l' :: ls'))
        show (l.keys ++ laneBag ls).Perm ((r ++ rs) ++ (l'.keys ++ laneBag ls'))
        rw [List.perm_iff_count]
        intro x
        have c1 := (List.perm_iff_count.mp h1) x
        have c2 := (List.perm_iff_count.mp h2) x
        simp only [List.count_append] at c1 c2 ⊢
        omega

theorem laneBag_modify (k : DKey) (f : Lane → Lane) :
    ∀ (ls : List Lane) (n : ℕ), n < ls.length →
      (f (ls.getD n default)).keys.Perm (k :: (ls.getD n default).keys) →
      (laneBag (modifyLane ls n f)).Perm (k :: laneBag ls) := by
  intro ls
  induction ls with
  | nil =>
    intro n hn
    simp at hn
  | cons l ls ih =>
    intro n hn hf
    cases n with
    | zero =>
      simp only [List.getD_cons_zero] at hf
      show ((f l).keys ++ laneBag ls).Perm (k :: (l.keys ++ laneBag ls))
      rw [List.perm_iff_count]
      intro x
      have c1 := (List.perm_iff_count.mp hf) x
      simp only [List.count_append, List.count_cons] at c1 ⊢
      omega
    | succ n =>
      simp only [List.getD_cons_succ] at hf
      have hrec := ih n (by simpa using hn) hf
      show (l.keys ++ laneBag (modifyLane ls n f)).Perm (k :: (l.keys ++ laneBag ls))
      rw [List.perm_iff_count]
      intro x
      have c1 := (List.perm_iff_count.mp hrec) x
      simp only [List.count_append, List.count_cons] at c1 ⊢
      omega

theorem pickLine_some_lt (lanes : List Lane) (lm : ℚ) (mode : DanmakuType)
    (rightOf : DKey → ℚ) (videoW : ℚ) (i : ℕ)
    (h : pickLine lanes lm mode rightOf videoW = some i) : i < lanes.length := by
  cases mode with
  | Float => exact ((pickLine_float_eq lanes lm videoW rightOf i).mp h).1
  | Top => exact ((pickLine_top_eq lanes lm videoW rightOf i).mp h).1
  | Bottom => exact ((pickLine_bottom_eq lanes lm videoW rightOf i).mp h).1

theorem pickLine_fixed_none (lanes : List Lane) (lm : ℚ) (mode : DanmakuType)
    (rightOf : DKey → ℚ) (videoW : ℚ) (i : ℕ)
    (hmode : mode = DanmakuType.Bottom ∨ mode = DanmakuType.Top)
    (h : pickLine lanes lm mode rightOf videoW = some i) :
    (lanes.getD i default).fixedItem = none := by
  rcases hmode with rfl | rfl
  · exact ((pickLine_bottom_eq lanes lm videoW rightOf i).mp h).2.1
  · exact ((pickLine_top_eq lanes lm videoW rightOf i).mp h).2.1

/-- The three continuation shapes of one loop iteration: an already-active
skip, a lane-exhaustion drop (both only advance the cursor), or an
activation into the picked lane. -/
theorem loadStep_cases (rightOf : DKey → ℚ) (videoW now : ℚ) (e e' : Engine)
    (tr : TraceEntry) (h : loadStep rightOf videoW now e = .cont e' tr) :
    (∃ i, e' = { e with nextIdx := some (i + 1) }) ∨
    (∃ i li, candidate e now = some i ∧ (e.gen, i) ∉ e.active ∧
       pickLine e.lanes e.lineMargin ((e.data.getD []).getD i default).mode rightOf
         videoW = some li ∧
       e' = activate { e with nextIdx := some (i + 1) } i
         ((e.data.getD []).getD i default) li) := by
  unfold loadStep at h
  cases hcand : candidate e now with
  | none =>
    rw [hcand] at h
    exact StepRes.noConfusion h
  | some idx =>
    simp only [hcand] at h
    by_cases hmem : (e.gen, idx) ∈ e.active
    · rw [if_pos hmem] at h
      injection h with he htr
      exact Or.inl ⟨idx, he.symm⟩
    · rw [if_neg hmem] at h
      by_cases htol : 1/10 < |((e.data.getD []).getD idx default).time - now|
      · rw [if_pos htol] at h
        exact StepRes.noConfusion h
      · rw [if_neg htol] at h
        cases hpick : pickLine { e with nextIdx := some (idx + 1) }.lanes
            { e with nextIdx := some (idx + 1) }.lineMargin
            ((e.data.getD []).getD idx default).mode rightOf videoW with
        | none =>
          rw [hpick] at h
          injection h with he htr
          exact Or.inl ⟨idx, he.symm⟩
        | some li =>
          rw [hpick] at h
          injection h with he htr
          exact Or.inr ⟨idx, li, rfl, hmem, hpick, he.symm⟩

theorem activate_reg (e : Engine) (i : ℕ) (d : Danmaku) (li : ℕ)
    (hli : li < e.lanes.length)
    (hfix : (d.mode = DanmakuType.Bottom ∨ d.mode = DanmakuType.Top) →
      (e.lanes.getD li default).fixedItem = none)
    (hmem : (e.gen, i) ∉ e.active)
    (hw : wfReg e) :
    wfReg (activate e i d li) ∧ (regEq e → regEq (activate e i d li)) := by
  obtain ⟨hand, hbnd, hsup⟩ := hw
  have hknb : (e.gen, i) ∉ laneBag e.lanes := fun hh => hmem (hsup _ hh)
  have hperm : (laneBag (activate e i d li).lanes).Perm
      ((e.gen, i) :: laneBag e.lanes) := by
    unfold activate
    dsimp only
    by_cases hmode : d.mode = DanmakuType.Bottom ∨ d.mode = DanmakuType.Top
    · rw [if_pos hmode]
      refine laneBag_modify _ _ e.lanes li hli ?_
      unfold Lane.keys
      rw [hfix hmode]
      dsimp only
      rw [List.perm_iff_count]
      intro x
      simp only [List.count_append, List.count_cons, List.count_nil,
        VisItem.key]
      omega
    · rw [if_neg hmode]
      refine laneBag_modify _ _ e.lanes li hli ?_
      unfold Lane.keys
      dsimp only
      rw [List.perm_iff_count]
      intro x
      simp only [List.map_append, List.count_append, List.count_cons,
        List.count_nil, List.map_cons, List.map_nil, VisItem.key]
      omega
  have hact : (activate e i d li).active = setAdd e.active (e.gen, i) := rfl
  constructor
  · refine ⟨?_, ?_, ?_⟩
    · rw [hact]
      exact setAdd_nodup _ _ hand
    · refine hperm.symm.nodup ?_
      exact List.Nodup.cons hknb hbnd
    · intro k hk
      rw [hact, mem_setAdd]
      rcases List.mem_cons.mp (hperm.mem_iff.mp hk) with rfl | hk'
      · exact Or.inr rfl
      · exact Or.inl (hsup k hk')
  · intro heq k
    rw [hact, mem_setAdd, hperm.mem_iff, List.mem_cons]
    rw [heq k]
    tauto

theorem reg_loadStep (rightOf : DKey → ℚ) (videoW now : ℚ) (e e' : Engine)
    (tr : TraceEntry) (h : loadStep rightOf videoW now e = .cont e' tr)
    (hw : wfReg e) : wfReg e' ∧ (regEq e → regEq e') := by
  rcases loadStep_cases rightOf videoW now e e' tr h with
    ⟨i, rfl⟩ | ⟨i, li, hcand, hmem, hpick, rfl⟩
  · exact ⟨hw, id⟩
  · exact activate_reg { e with nextIdx := some (i + 1) } i
      ((e.data.getD []).getD i default) li
      (pickLine_some_lt _ _ _ _ _ _ hpick)
      (fun hm => pickLine_fixed_none _ _ _ _ _ _ hm hpick)
      hmem hw

theorem reg_loadLoop (rightOf : DKey → ℚ) (videoW now : ℚ) :
    ∀ (fuel : ℕ) (e : Engine), wfReg e →
      wfReg (loadLoop rightOf videoW now fuel e).1 ∧
      (regEq e → regEq (loadLoop rightOf videoW now fuel e).1) := by
  intro fuel
  induction fuel with
  | zero => exact fun e hw => ⟨hw, id⟩
  | succ fuel ih =>
    intro e hw
    cases hstep : loadStep rightOf videoW now e with
    | exitNoCand =>
      have hfin : (loadLoop rightOf videoW now (fuel + 1) e).1 = e := by
        simp only [loadLoop, hstep]
      rw [hfin]
      exact ⟨hw, id⟩
    | exitTol =>
      have hfin : (loadLoop rightOf videoW now (fuel + 1) e).1 = e := by
        simp only [loadLoop, hstep]
      rw [hfin]
      exact ⟨hw, id⟩
    | cont e' tr =>
      have hfin : (loadLoop rightOf videoW now (fuel + 1) e).1 =
          (loadLoop rightOf videoW now fuel e').1 := by
        simp only [loadLoop, hstep]
      rw [hfin]
      obtain ⟨hw', heq'⟩ := reg_loadStep rightOf videoW now e e' tr hstep hw
      obtain ⟨hw'', heq''⟩ := ih e' hw'
      exact ⟨hw'', fun h => heq'' (heq' h)⟩

theorem reg_loadDanmaku (rightOf : DKey → ℚ) (videoW now : ℚ) (fuel : ℕ)
    (e : Engine) (hw : wfReg e) :
    wfReg (loadDanmaku rightOf videoW now fuel e) ∧
    (regEq e → regEq (loadDanmaku rightOf videoW now fuel e)) := by
  unfold loadDanmaku
  split_ifs with h
  · exact ⟨hw, id⟩
  · exact reg_loadLoop rightOf videoW now fuel e hw

theorem reg_cleanup (anim : DKey → Option PlayState) (videoW now : ℚ)
    (e : Engine) (hw : wfReg e) :
    wfReg (cleanupDanmaku anim videoW now e) ∧
    (regEq e → regEq (cleanupDanmaku anim videoW now e)) := by
  unfold cleanupDanmaku
  split_ifs with h
  · exact ⟨hw, id⟩
  · cases hcl : cleanLanes anim (fixedExpired e.attached videoW now) e.lanes with
    | mk ls rm =>
      obtain ⟨hand, hbnd, hsup⟩ := hw
      have hperm : (laneBag e.lanes).Perm (rm ++ laneBag ls) := by
        have := cleanLanes_perm anim (fixedExpired e.attached videoW now) e.lanes
        rw [hcl] at this
        exact this
      have hnd2 : (rm ++ laneBag ls).Nodup := hperm.nodup hbnd
      have hdisj : List.Disjoint rm (laneBag ls) :=
        List.disjoint_of_nodup_append hnd2
      constructor
      · refine ⟨eraseAll_nodup rm e.active hand,
          (List.nodup_append.mp hnd2).2.1, ?_⟩
        intro k hk
        rw [mem_eraseAll_of_nodup rm e.active hand k]
        refine ⟨hsup k (hperm.mem_iff.mpr (List.mem_append_right rm hk)), ?_⟩
        intro hkrm
        exact hdisj hkrm hk
      · intro heq k
        show k ∈ eraseAll e.active rm ↔ k ∈ laneBag ls
        rw [mem_eraseAll_of_nodup rm e.active hand k]
        constructor
        · rintro ⟨hk, hnrm⟩
          have : k ∈ laneBag e.lanes := (heq k).mp hk
          rcases List.mem_append.mp (hperm.mem_iff.mp this) with h' | h'
          · exact absurd h' hnrm
          · exact h'
        · intro hk
          exact ⟨(heq k).mpr (hperm.mem_iff.mpr (List.mem_append_right rm hk)),
            fun hrm => hdisj hrm hk⟩

theorem reg_update (videoH : ℚ) (e : Engine) (hw : wfReg e) :
    wfReg (updateDanmakuLines videoH e) ∧
    (regEq e →
      shrinkSafeB e.lanes (calAvailableLines e.attached e.fontSize videoH) = true →
      regEq (updateDanmakuLines videoH e)) := by
  have hnil : shrinkSafeB e.lanes (calAvailableLines e.attached e.fontSize videoH)
      = true ↔
      laneBag (e.lanes.drop (calAvailableLines e.attached e.fontSize videoH)) = [] := by
    unfold shrinkSafeB
    exact List.isEmpty_iff
  unfold updateDanmakuLines
  dsimp only
  obtain ⟨hand, hbnd, hsup⟩ := hw
  split_ifs with h1 h2
  · exact ⟨⟨hand, hbnd, hsup⟩, fun h _ => h⟩
  · have hsplit := laneBag_take_drop e.lanes
      (calAvailableLines e.attached e.fontSize videoH)
    constructor
    · refine ⟨hand, ?_, ?_⟩
      · rw [hsplit] at hbnd
        exact (List.nodup_append.mp hbnd).1
      · intro k hk
        refine hsup k ?_
        rw [hsplit]
        exact List.mem_append_left _ hk
    · intro heq hsafe k
      show k ∈ e.active ↔
        k ∈ laneBag (e.lanes.take (calAvailableLines e.attached e.fontSize videoH))
      rw [heq k, hsplit, hnil.mp hsafe, List.append_nil]
  · have hgrow : laneBag (e.lanes ++ List.replicate
        (calAvailableLines e.attached e.fontSize videoH - e.lanes.length)
        emptyLane) = laneBag e.lanes := by
      rw [laneBag_append, laneBag_replicate_empty, List.append_nil]
    constructor
    · refine ⟨hand, ?_, ?_⟩
      · rw [hgrow]
        exact hbnd
      · intro k hk
        rw [hgrow] at hk
        exact hsup k hk
    · intro heq _ k
      show k ∈ e.active ↔ _
      rw [hgrow]
      exact heq k

theorem wfReg_congr (e e' : Engine) (hl : e'.lanes = e.lanes)
    (ha : e'.active = e.active) :
    (wfReg e → wfReg e') ∧ (regEq e → regEq e') := by
  unfold wfReg regEq
  rw [hl, ha]
  exact ⟨id, id⟩

theorem show'_pause_lanes_active (vp : Bool) (x : Engine) :
    (show' vp x).lanes = x.lanes ∧ (show' vp x).active = x.active ∧
    (pause (show' vp x)).lanes = x.lanes ∧ (pause (show' vp x)).active = x.active := by
  obtain ⟨_, sl, sac, _, _, _⟩ := show'_parts vp x
  obtain ⟨_, _, pl, pac, _, _, _⟩ := pause_parts (show' vp x)
  exact ⟨sl, sac, pl.trans sl, pac.trans sac⟩

theorem load_lanes_active (fetch : Except String (List Danmaku)) (vp : Bool)
    (e : Engine) :
    (load fetch vp e).1.lanes = e.lanes ∧ (load fetch vp e).1.active = e.active := by
  obtain ⟨_, hl, hac, _, _, _⟩ := hide_parts e
  unfold load
  dsimp only
  cases fetch with
  | error s =>
    dsimp only
    by_cases hinert : e.state = CBState.Empty ∨ e.state = CBState.Hide
    · rw [if_pos hinert]
      exact ⟨rfl, rfl⟩
    · rw [if_neg hinert]
      exact ⟨hl, hac⟩
  | ok input =>
    dsimp only
    by_cases hinert : e.state = CBState.Empty ∨ e.state = CBState.Hide
    · rw [if_pos hinert, if_pos hinert]
      exact ⟨rfl, rfl⟩
    · rw [if_neg hinert, if_neg hinert]
      by_cases hplay : e.state = CBState.Playing
      · rw [if_pos hplay]
        exact ⟨((show'_pause_lanes_active vp _).1).trans hl,
          ((show'_pause_lanes_active vp _).2.1).trans hac⟩
      · rw [if_neg hplay]
        exact ⟨((show'_pause_lanes_active vp _).2.2.1).trans hl,
          ((show'_pause_lanes_active vp _).2.2.2).trans hac⟩

theorem reg_attach (videoH : ℚ) (e : Engine) (hw : wfReg e) :
    wfReg (attachToVideo videoH e) ∧
    (regEq e → opSafeB e (Op.attach videoH) = true →
      regEq (attachToVideo videoH e)) := by
  unfold attachToVideo
  dsimp only
  by_cases hne : e.state ≠ CBState.Empty
  · rw [if_pos hne]
    obtain ⟨_, _, _, hdcase⟩ := detach_parts e
    rcases hdcase with ⟨hna, heq⟩ | ⟨_, _, hdl, hdac⟩
    · -- no video attached: detach only stops the timer, lanes survive
      obtain ⟨_, _, cl, cac, _, _, _⟩ := clearIntervalF_parts e
      have hl : ({ detach e with attached := true } : Engine).lanes = e.lanes := by
        show (detach e).lanes = e.lanes
        rw [heq]
        exact cl
      have hac : ({ detach e with attached := true } : Engine).active = e.active := by
        show (detach e).active = e.active
        rw [heq]
        exact cac
      obtain ⟨hw1, heq1⟩ := wfReg_congr e { detach e with attached := true } hl hac
      obtain ⟨uw, ueq⟩ :=
        reg_update videoH { detach e with attached := true } (hw1 hw)
      obtain ⟨tw, teq⟩ := wfReg_congr
        (updateDanmakuLines videoH { detach e with attached := true })
        { updateDanmakuLines videoH { detach e with attached := true } with
          state := CBState.Hide } rfl rfl
      refine ⟨tw uw, ?_⟩
      intro hre hsafe
      refine teq (ueq (heq1 hre) ?_)
      show shrinkSafeB ({ detach e with attached := true } : Engine).lanes
        (calAvailableLines true
          ({ detach e with attached := true } : Engine).fontSize videoH) = true
      rw [hl]
      have hfs : ({ detach e with attached := true } : Engine).fontSize
          = e.fontSize := by
        show (detach e).fontSize = e.fontSize
        rw [heq]
        unfold clearIntervalF
        split_ifs <;> rfl
      rw [hfs]
      simp only [opSafeB] at hsafe
      rw [if_pos (Or.inr (by rw [hna]))] at hsafe
      exact hsafe
    · -- full teardown: lanes and registry emptied before the resize
      have hl : ({ detach e with attached := true } : Engine).lanes = [] := hdl
      have hac : ({ detach e with attached := true } : Engine).active = [] := hdac
      have hw1 : wfReg { detach e with attached := true } := by
        refine ⟨?_, ?_, ?_⟩
        · rw [hac]
          exact List.nodup_nil
        · rw [hl]
          exact List.nodup_nil
        · intro k hk
          rw [hl] at hk
          exact absurd hk (by simp [laneBag])
      have heq1 : regEq { detach e with attached := true } := by
        intro k
        rw [hac, hl]
        simp [laneBag]
      obtain ⟨uw, ueq⟩ := reg_update videoH { detach e with attached := true } hw1
      obtain ⟨tw, teq⟩ := wfReg_congr
        (updateDanmakuLines videoH { detach e with attached := true })
        { updateDanmakuLines videoH { detach e with attached := true } with
          state := CBState.Hide } rfl rfl
      refine ⟨tw uw, fun _ _ => ?_⟩
      refine teq (ueq heq1 ?_)
      show shrinkSafeB ({ detach e with attached := true } : Engine).lanes _ = true
      rw [hl]
      unfold shrinkSafeB
      rw [List.isEmpty_iff, List.drop_nil]
      rfl
  · rw [if_neg hne]
    obtain ⟨uw, ueq⟩ := reg_update videoH { e with attached := true }
      ((wfReg_congr e { e with attached := true } rfl rfl).1 hw)
    obtain ⟨tw, teq⟩ := wfReg_congr
      (updateDanmakuLines videoH { e with attached := true })
      { updateDanmakuLines videoH { e with attached := true } with
        state := CBState.Hide } rfl rfl
    refine ⟨tw uw, ?_⟩
    intro hre hsafe
    refine teq (ueq ((wfReg_congr e { e with attached := true } rfl rfl).2 hre) ?_)
    simp only [opSafeB] at hsafe
    rw [if_pos (Or.inl (not_not.mp hne))] at hsafe
    exact hsafe

theorem reg_applyOp (e : Engine) (op : Op) (hw : wfReg e) :
    wfReg (applyOp e op) ∧
    (regEq e → opSafeB e op = true → regEq (applyOp e op)) := by
  cases op with
  | attach videoH => exact reg_attach videoH e hw
  | detachOp =>
    show wfReg (detach e) ∧
      (regEq e → opSafeB e Op.detachOp = true → regEq (detach e))
    obtain ⟨_, _, _, hdcase⟩ := detach_parts e
    rcases hdcase with ⟨_, heq⟩ | ⟨_, _, hdl, hdac⟩
    · rw [heq]
      obtain ⟨_, _, cl, cac, _, _, _⟩ := clearIntervalF_parts e
      obtain ⟨h1, h2⟩ := wfReg_congr e (clearIntervalF e) cl cac
      exact ⟨h1 hw, fun hre _ => h2 hre⟩
    · refine ⟨⟨?_, ?_, ?_⟩, fun _ _ k => ?_⟩
      · rw [hdac]
        exact List.nodup_nil
      · rw [hdl]
        exact List.nodup_nil
      · intro k hk
        rw [hdl] at hk
        exact absurd hk (by simp [laneBag])
      · rw [hdac, hdl]
        simp [laneBag]
  | loadOp fetch vp =>
    show wfReg (load fetch vp e).1 ∧
      (regEq e → opSafeB e (Op.loadOp fetch vp) = true → regEq (load fetch vp e).1)
    obtain ⟨hl, hac⟩ := load_lanes_active fetch vp e
    obtain ⟨h1, h2⟩ := wfReg_congr e (load fetch vp e).1 hl hac
    exact ⟨h1 hw, fun hre _ => h2 hre⟩
  | showOp vp =>
    show wfReg (show' vp e) ∧
      (regEq e → opSafeB e (Op.showOp vp) = true → regEq (show' vp e))
    obtain ⟨_, hl, hac, _, _, _⟩ := show'_parts vp e
    obtain ⟨h1, h2⟩ := wfReg_congr e (show' vp e) hl hac
    exact ⟨h1 hw, fun hre _ => h2 hre⟩
  | hideOp =>
    show wfReg (hide e) ∧
      (regEq e → opSafeB e Op.hideOp = true → regEq (hide e))
    obtain ⟨_, hl, hac, _, _, _⟩ := hide_parts e
    obtain ⟨h1, h2⟩ := wfReg_congr e (hide e) hl hac
    exact ⟨h1 hw, fun hre _ => h2 hre⟩
  | pauseOp =>
    show wfReg (pause e) ∧
      (regEq e → opSafeB e Op.pauseOp = true → regEq (pause e))
    obtain ⟨_, _, hl, hac, _, _, _⟩ := pause_parts e
    obtain ⟨h1, h2⟩ := wfReg_congr e (pause e) hl hac
    exact ⟨h1 hw, fun hre _ => h2 hre⟩
  | resumeOp =>
    show wfReg (resume e) ∧
      (regEq e → opSafeB e Op.resumeOp = true → regEq (resume e))
    obtain ⟨_, _, hl, hac, _, _, _⟩ := resume_parts e
    obtain ⟨h1, h2⟩ := wfReg_congr e (resume e) hl hac
    exact ⟨h1 hw, fun hre _ => h2 hre⟩
  | seekOp =>
    show wfReg (seek e) ∧
      (regEq e → opSafeB e Op.seekOp = true → regEq (seek e))
    obtain ⟨h1, h2⟩ := wfReg_congr e (seek e) rfl rfl
    exact ⟨h1 hw, fun hre _ => h2 hre⟩
  | setFontSizeOp s =>
    show wfReg (setFontSize s e) ∧
      (regEq e → opSafeB e (Op.setFontSizeOp s) = true → regEq (setFontSize s e))
    obtain ⟨h1, h2⟩ := wfReg_congr e (setFontSize s e) rfl rfl
    exact ⟨h1 hw, fun hre _ => h2 hre⟩
  | setLineMarginOp m =>
    show wfReg (setLineMargin m e).1 ∧
      (regEq e → opSafeB e (Op.setLineMarginOp m) = true → regEq (setLineMargin m e).1)
    unfold setLineMargin
    split_ifs with h
    · exact ⟨hw, fun hre _ => hre⟩
    · obtain ⟨h1, h2⟩ := wfReg_congr e { e with lineMargin := m } rfl rfl
      exact ⟨h1 hw, fun hre _ => h2 hre⟩
  | tick rightOf anim w now fuel =>
    show wfReg (if e.intervalOn ∧ e.attached then
        cleanupDanmaku anim w now (loadDanmaku rightOf w now fuel e) else e) ∧
      (regEq e → opSafeB e (Op.tick rightOf anim w now fuel) = true →
        regEq (if e.intervalOn ∧ e.attached then
          cleanupDanmaku anim w now (loadDanmaku rightOf w now fuel e) else e))
    split_ifs with hg
    · obtain ⟨lw, leq⟩ := reg_loadDanmaku rightOf w now fuel e hw
      obtain ⟨cw, ceq⟩ := reg_cleanup anim w now
        (loadDanmaku rightOf w now fuel e) lw
      exact ⟨cw, fun hre _ => ceq (leq hre)⟩
    · exact ⟨hw, fun hre _ => hre⟩
  | resize videoH =>
    show wfReg (if e.attached then updateDanmakuLines videoH e else e) ∧
      (regEq e → opSafeB e (Op.resize videoH) = true →
        regEq (if e.attached then updateDanmakuLines videoH e else e))
    split_ifs with hg
    · obtain ⟨uw, ueq⟩ := reg_update videoH e hw
      refine ⟨uw, ?_⟩
      intro hre hsafe
      refine ueq hre ?_
      simp only [opSafeB, Bool.or_eq_true] at hsafe
      rcases hsafe with h | h
      · rw [hg] at h
        exact Bool.noConfusion h
      · exact h
    · exact ⟨hw, fun hre _ => hre⟩

theorem reg_foldl (ops : List Op) :
    ∀ e : Engine, wfReg e →
      wfReg (ops.foldl applyOp e) ∧
      (regEq e → safeTraceB e ops = true → regEq (ops.foldl applyOp e)) := by
  induction ops with
  | nil => exact fun e hw => ⟨hw, fun hre _ => hre⟩
  | cons op ops ih =>
    intro e hw
    obtain ⟨hw1, heq1⟩ := reg_applyOp e op hw
    obtain ⟨hw2, heq2⟩ := ih (applyOp e op) hw1
    refine ⟨hw2, ?_⟩
    intro hre hsafe
    have hsafe' : opSafeB e op = true ∧ safeTraceB (applyOp e op) ops = true := by
      simpa [safeTraceB, Bool.and_eq_true] using hsafe
    exact heq2 (heq1 hre hsafe'.1) hsafe'.2

/-- C1 counterexample: a concrete run — attach (one lane), load one
annotation, show, a tick at its due time (activating it into lane 0), then
a viewport shrink to zero lanes.  The shrink's `line.clear()` removes the
lane's items without deleting them from `_activeDanmaku`, so afterwards
the registry still holds the annotation's key while no lane holds any
visible item: the registry does not equal the union of the lanes' visible
items at this observable point. -/
theorem claim_C1_counterexample :
    (1, 0) ∈ (run exOpsShrink).active ∧ laneBag (run exOpsShrink).lanes = [] := by
  constructor
  · decide
  · decide

/-- C1 (amended): the union of the lanes' visible items is always
contained in the Active-Item Registry, and the registry equals that union
at every observable point of every run whose lane-set resizes (including
the one inside `attach`) never discard a lane still holding visible items;
a shrinking resize that does discard such a lane leaves the discarded
items' annotations in the registry with no visible item (only this breaks
the equality). -/
theorem claim_C1 (ops : List Op) :
    (∀ k, k ∈ laneBag (run ops).lanes → k ∈ (run ops).active) ∧
    (safeTraceB initEngine ops = true →
      ∀ k, k ∈ (run ops).active ↔ k ∈ laneBag (run ops).lanes) := by
  have hinit : wfReg initEngine :=
    ⟨List.nodup_nil, List.nodup_nil, fun k hk => absurd hk (by simp [initEngine, laneBag])⟩
  have hiniteq : regEq initEngine := by
    intro k
    simp [initEngine, laneBag]
  obtain ⟨hw, heq⟩ := reg_foldl ops initEngine hinit
  exact ⟨hw.2.2, fun hsafe => heq hiniteq hsafe⟩

theorem claim_C1_witness :
    (∀ k, k ∈ laneBag (run exOpsPlaying).lanes → k ∈ (run exOpsPlaying).active) ∧
    (∀ k, k ∈ (run exOpsPlaying).active ↔ k ∈ laneBag (run exOpsPlaying).lanes) :=
  ⟨(claim_C1 exOpsPlaying).1, (claim_C1 exOpsPlaying).2 (by decide)⟩

end CreepyBird
